import Mathlib

/-!
# Verification of the qfrm pricing engines

Shallow embedding of the numerical pricing code in `src/` of the qfrm
repository (Boston.py, LowExercisePrice.py, Basket.py, Spread.py), over
the real numbers, together with proofs settling the frozen claims about
the lattice (binomial-tree) engine and the two Monte Carlo engines.

Conventions:
* python float arithmetic is modelled by exact real arithmetic;
* numpy arrays built by slicing (`O[:i]`, `O[1:]`, `d * S[1:i+1]`) are
  modelled by `List ℝ` with `dropLast` / `tail` / `map`;
* asset-indexed tuples are modelled by `Fin N → ℝ`;
* the pseudo-random normal draws are abstracted as explicit function
  parameters (the engines are deterministic in them).
-/

namespace Qfrm

/-- Lattice parameters, the dictionary returned by `OptionValuation.LT_specs`
(qfrm base class; the file itself is not part of `src/`). -/
structure LTSpecs where
  dt : ℝ
  u : ℝ
  d : ℝ
  a : ℝ
  p : ℝ
  df_dt : ℝ
  df_T : ℝ

/-- Modelled from the spec: `LatticeParameterBuilder` (§4.1), i.e. the
`LT_specs` method of the `OptionValuation` base class, which is not under
`src/`.  Per the spec: `dt = T/n`; Cox-Ross-Rubinstein step `u = exp(vol·√dt)`,
`d = 1/u = exp(−vol·√dt)`; growth factor `a = exp((r−q)·dt)`; risk-neutral
probability `p = (a−d)/(u−d)`; discount factors `df_dt = exp(−r·dt)`,
`df_T = exp(−r·T)`.  (The concrete doctest constants inside `src/` —
e.g. `u = 1.3498588075760032` for `vol=0.3, dt=1` — agree with these
formulas.) -/
noncomputable def ltSpecs (vol r q T : ℝ) (n : ℕ) : LTSpecs :=
  let dt : ℝ := T / n
  { dt := dt
    u := Real.exp (vol * Real.sqrt dt)
    d := Real.exp (-(vol * Real.sqrt dt))
    a := Real.exp ((r - q) * dt)
    p := (Real.exp ((r - q) * dt) - Real.exp (-(vol * Real.sqrt dt))) /
      (Real.exp (vol * Real.sqrt dt) - Real.exp (-(vol * Real.sqrt dt)))
    df_dt := Real.exp (-(r * dt))
    df_T := Real.exp (-(r * T)) }

/-- Modelled from the spec: the failure mode of `LatticeParameterBuilder`
(§4.1, §7): it "reports an InvalidLatticeParameters condition when the derived
p lies outside [0,1]" and "valuation must not silently clamp p". -/
inductive LatticeError where
  | invalidLatticeParameters
deriving DecidableEq

/-- Modelled from the spec: the checked parameter builder — the derived
specs when `p ∈ [0,1]`, the `InvalidLatticeParameters` condition otherwise. -/
noncomputable def ltSpecsChecked (vol r q T : ℝ) (n : ℕ) :
    Except LatticeError LTSpecs :=
  let sp := ltSpecs vol r q T n
  if 0 ≤ sp.p ∧ sp.p ≤ 1 then .ok sp else .error .invalidLatticeParameters

/-- The exercise payoff `np.maximum(signCP * (S - K), 0)` used by
`Boston._calc_LT` (Boston.py lines 103 and 112). -/
noncomputable def payoff (sign s K : ℝ) : ℝ := max (sign * (s - K)) 0

/-- Terminal layer of stock prices,
`S = S0 * d ** arange(n, -1, -1) * u ** arange(0, n+1)`
(Boston.py line 102, LowExercisePrice.py line 124): entry `i` is
`S0 * d^(n-i) * u^i`. -/
noncomputable def termS (S0 : ℝ) (sp : LTSpecs) (n : ℕ) : List ℝ :=
  (List.range (n + 1)).map fun i => S0 * sp.d ^ (n - i) * sp.u ^ i

/-- One backward-induction layer step on a `(S, O)` pair of price layers,
parametrised by how the continuation value and the new stock price are
combined into the new option value (`comb`):
* `O' := df_dt * ((1-p) * O[:i] + p * O[1:])` (the `zipWith` of the
  dropLast/tail slices),
* `S' := d * S[1:i+1]` (i.e. `d *` the tail),
* new option layer `:= zipWith comb O' S'`.
`Boston._calc_LT` (lines 110–113) uses `comb c s = max c (payoff sign s K)`;
the history branch of `LowExercisePrice._calc_LT` (lines 134–135) uses
`comb c s = c` (no early exercise). -/
noncomputable def layerStep (sp : LTSpecs) (comb : ℝ → ℝ → ℝ)
    (SO : List ℝ × List ℝ) : List ℝ × List ℝ :=
  let C := List.zipWith (fun a b => sp.df_dt * ((1 - sp.p) * a + sp.p * b))
    SO.2.dropLast SO.2.tail
  let S := SO.1.tail.map (fun s => sp.d * s)
  (S, List.zipWith comb C S)

/-- The layers accumulated by the `for i in range(n, 0, -1)` loop
(terminal layer prepended first, each earlier layer prepended in front of
it), in time-ascending order: `backSteps step k SO` is the list
`[step^[k] SO, …, step SO, SO]`. -/
noncomputable def backSteps (step : List ℝ × List ℝ → List ℝ × List ℝ) :
    ℕ → List ℝ × List ℝ → List (List ℝ × List ℝ)
  | 0, SO => [SO]
  | k + 1, SO => backSteps step k (step SO) ++ [SO]

/-- The result container relevant to `px_spec.add` in the lattice methods:
the price and the optional retained trees. -/
structure PriceSpecLT where
  px : ℝ
  ref_tree : Option (List (List ℝ))
  opt_tree : Option (List (List ℝ))

/-- Shallow embedding of `Boston._calc_LT` (Boston.py lines 98–121), with the
lattice parameter dictionary `_` passed in as `sp`:
terminal layers `S`, `O`; the early-exercise backward induction; the final
rescaling `O *= exp(rf_r * T)` (line 118); and the trees attached only when
`keep_hist` is set. -/
noncomputable def Boston_calc_LT (sp : LTSpecs) (S0 K sign r T : ℝ) (n : ℕ)
    (keep_hist : Bool) : PriceSpecLT :=
  let S := termS S0 sp n
  let O := S.map (fun s => payoff sign s K)
  let layers := backSteps (layerStep sp (fun c s => max c (payoff sign s K))) n (S, O)
  { px := Real.exp (r * T) * ((layers.headD ([], [])).2.headD 0)
    ref_tree := if keep_hist then some (layers.map Prod.fst) else none
    opt_tree := if keep_hist then some (layers.map Prod.snd) else none }

/-- The full Boston LT valuation: `_calc_LT` first calls `self.LT_specs(n)`
(Boston.py line 100); the builder is the spec-modelled checked builder, whose
failure aborts the valuation before any backward induction. -/
noncomputable def Boston_calc_LT_full (vol r q T S0 K sign : ℝ) (n : ℕ)
    (keep_hist : Bool) : Except LatticeError PriceSpecLT :=
  (ltSpecsChecked vol r q T n).map fun sp =>
    Boston_calc_LT sp S0 K sign r T n keep_hist

/-- The cumulative log array `csl = insert(cumsum(log(arange(n) + 1)), 0, 0)`
of LowExercisePrice.py line 142: `csl k = log 1 + log 2 + ⋯ + log k`
(`= log k!`), with `csl 0 = 0`. -/
noncomputable def csl (k : ℕ) : ℝ :=
  ∑ j ∈ Finset.range k, Real.log (j + 1)

/-- Shallow embedding of `LowExercisePrice._calc_LT` (LowExercisePrice.py
lines 101–149), with the parameter dictionary passed in as `sp`.  The
contract's strike `K` and right `sign` are fields of the object but are
never read by `_calc_LT`: the terminal payoff is the hard-coded
`maximum(S - 0.01, 0)` (line 126).  With `keep_hist` the price is
`O_tree[0][0]` after the (no-early-exercise) backward loop and both trees
are attached; otherwise the price is the log-space binomial sum
`df_T * sum(exp(tmp) * O)` of lines 142–144 and no tree is attached. -/
noncomputable def LEP_calc_LT (sp : LTSpecs) (S0 K sign : ℝ) (n : ℕ)
    (keep_hist : Bool) : PriceSpecLT :=
  let S := termS S0 sp n
  let O := S.map (fun s => max (s - 0.01) 0)
  if keep_hist then
    let layers := backSteps (layerStep sp (fun c _ => c)) n (S, O)
    { px := (layers.headD ([], [])).2.headD 0
      ref_tree := some (layers.map Prod.fst)
      opt_tree := some (layers.map Prod.snd) }
  else
    let tmp : ℕ → ℝ := fun i =>
      csl n - csl i - csl (n - i) + Real.log sp.p * i + Real.log (1 - sp.p) * (n - i)
    { px := sp.df_T * ∑ i ∈ Finset.range (n + 1), Real.exp (tmp i) * O.getD i 0
      ref_tree := none
      opt_tree := none }

/-! ## Spec-side (index-function) formulation of the lattice recursion

The claims describe the engine in terms of indexed families
`S_i`, `O_j`; the following definitions transcribe that description with
layers as functions `ℕ → ℝ` (only indices below the layer's node count are
meaningful). -/

/-- Spec-side terminal stock prices: `S_i = S0 · d^(n−i) · u^i`. -/
noncomputable def specTermS (S0 : ℝ) (sp : LTSpecs) (n : ℕ) : ℕ → ℝ :=
  fun i => S0 * sp.d ^ (n - i) * sp.u ^ i

/-- Spec-side backward-induction step of the early-exercise claim: replace
`O_j` by `max(df_dt·((1−p)·O_j + p·O_{j+1}), max(sign·(d·S_{j+1} − K), 0))`
and `S_j` by `d·S_{j+1}`. -/
noncomputable def specAmerStep (sp : LTSpecs) (sign K : ℝ)
    (SO : (ℕ → ℝ) × (ℕ → ℝ)) : (ℕ → ℝ) × (ℕ → ℝ) :=
  (fun j => sp.d * SO.1 (j + 1),
   fun j => max (sp.df_dt * ((1 - sp.p) * SO.2 j + sp.p * SO.2 (j + 1)))
     (max (sign * (sp.d * SO.1 (j + 1) - K)) 0))

/-- Spec-side value of the early-exercise lattice recursion: apply the
backward step `n` times to the terminal layers and read off the single
remaining value (index `0`). -/
noncomputable def specAmerValue (sp : LTSpecs) (S0 K sign : ℝ) (n : ℕ) : ℝ :=
  ((specAmerStep sp sign K)^[n]
    (specTermS S0 sp n, fun i => max (sign * (specTermS S0 sp n i - K)) 0)).2 0

/-- The generic function-space analogue of `layerStep`. -/
noncomputable def layerStepF (sp : LTSpecs) (comb : ℝ → ℝ → ℝ)
    (SO : (ℕ → ℝ) × (ℕ → ℝ)) : (ℕ → ℝ) × (ℕ → ℝ) :=
  (fun j => sp.d * SO.1 (j + 1),
   fun j => comb (sp.df_dt * ((1 - sp.p) * SO.2 j + sp.p * SO.2 (j + 1)))
     (sp.d * SO.1 (j + 1)))

/-- The pure option-layer recursion without early exercise (the `O`
component of the LowExercisePrice history branch). -/
noncomputable def euroF (sp : LTSpecs) (g : ℕ → ℝ) : ℕ → ℝ :=
  fun j => sp.df_dt * ((1 - sp.p) * g j + sp.p * g (j + 1))

/-! ## Basket Monte Carlo (Basket.py `_calc_MC`, lines 125–194) -/

/-- The Euler step `calS` of Basket.py lines 157–160:
`deltaS = mu*St*deltat + sigma*St*param*sqrt(deltat); S_update = St + deltaS`. -/
noncomputable def calS (deltat mu sigma St param : ℝ) : ℝ :=
  St + (mu * St * deltat + sigma * St * param * Real.sqrt deltat)

/-- The path builder `one_path` of Basket.py lines 163–168: start from `(S0,)` and
append `calS(last element, param[i])` for `i in range(nsteps)`. -/
noncomputable def one_path (deltat mu sigma S0 : ℝ) (param : List ℝ) : List ℝ :=
  param.foldl (fun acc z => acc ++ [calS deltat mu sigma (acc.getLastD 0) z]) [S0]

/-- The result container for the basket valuation: the price, and the
optional retained history (the shared increment batch, which per the spec
is what `keep_hist` should retain for this variant).  `Basket._calc_MC`
line 192 passes only `px` and a sub-method tag to `px_spec.add` — no
history artifact of any kind — so the embedding can only ever fill the
history field with `none`. -/
structure BasketResult (N : ℕ) where
  px : ℝ
  hist : Option (ℕ → Fin N → ℝ)

/-- Shallow embedding of `Basket._calc_MC` (Basket.py lines 125–194).
Asset-indexed tuples are `Fin N → ℝ`; the multivariate-normal sampler is
abstracted as the parameter `mvn` (the code fixes `seed(10987)` and then
draws `multivariate_normal(0, covM, nsteps)` exactly once, so the draw is a
deterministic function of the covariance matrix and the count):
* `covM = diag(vol) · corrM · diag(vol)` (line 174);
* `param = tuple(zip(*param))` re-indexes the batch per asset (line 180);
* each asset's path is `one_path` driven by its increment sequence;
* `wprice[t] = Σ_j price[j][t] * weight[j]` (the matrix product of
  line 185), identical for every one of the `npaths` paths;
* the payoff `max(0, signCP*(mean(terminal values) − K))` is applied once
  to the across-paths mean of the terminal weighted value (line 190);
* the price is `payoff * exp(−rf_r*T)` (line 192), with no history
  attached (`px_spec.add` receives none). -/
noncomputable def Basket_calc_MC {N : ℕ} (S0 mu vol : Fin N → ℝ)
    (corrM : Matrix (Fin N) (Fin N) ℝ) (weight : Fin N → ℝ)
    (K sign r T : ℝ) (nsteps npaths : ℕ)
    (mvn : Matrix (Fin N) (Fin N) ℝ → ℕ → ℕ → Fin N → ℝ)
    (keep_hist : Bool) : BasketResult N :=
  let deltat := T / nsteps
  let covM := Matrix.diagonal vol * corrM * Matrix.diagonal vol
  let batch := mvn covM nsteps
  let param : Fin N → List ℝ := fun j => (List.range nsteps).map fun t => batch t j
  let price : Fin N → List ℝ := fun j =>
    one_path deltat (mu j) (vol j) (S0 j) (param j)
  let wprice : List ℝ := (List.range (nsteps + 1)).map fun t =>
    ∑ j, (price j).getD t 0 * weight j
  let priceNpath : List (List ℝ) := (List.range npaths).map fun _ => wprice
  let terminal : List ℝ := priceNpath.map fun w => w.getD nsteps 0
  let po := max 0 (sign * (terminal.sum / terminal.length - K))
  { px := po * Real.exp (-(r * T)), hist := none }

/-- The claim-side description of the basket Monte Carlo valuation
(claim C2 / spec §4.4 basket variant), written from its words: one batch
with covariance `diag(vol)·Corr·diag(vol)`, Euler update
`S_{t+1} = S_t + mu·S_t·dt + vol·S_t·Z_t·√dt` re-applying the same batch on
every path, the across-paths average of `weight · S(T)`, the payoff
`max(0, sign·(average − K))` applied once, discounted by `exp(−r·T)`. -/
noncomputable def basketSpecEuler {N : ℕ} (dt : ℝ) (mu vol S0 : Fin N → ℝ)
    (Z : ℕ → Fin N → ℝ) (j : Fin N) : ℕ → ℝ
  | 0 => S0 j
  | t + 1 => basketSpecEuler dt mu vol S0 Z j t
      + mu j * basketSpecEuler dt mu vol S0 Z j t * dt
      + vol j * basketSpecEuler dt mu vol S0 Z j t * Z t j * Real.sqrt dt

/-- The claim-side basket price (see `basketSpecEuler`). -/
noncomputable def basketSpecPx {N : ℕ} (S0 mu vol : Fin N → ℝ)
    (corrM : Matrix (Fin N) (Fin N) ℝ) (weight : Fin N → ℝ)
    (K sign r T : ℝ) (n m : ℕ)
    (mvn : Matrix (Fin N) (Fin N) ℝ → ℕ → ℕ → Fin N → ℝ) : ℝ :=
  let dt := T / n
  let Z := mvn (Matrix.diagonal vol * corrM * Matrix.diagonal vol) n
  let avg := (∑ _i : Fin m, ∑ j, weight j * basketSpecEuler dt mu vol S0 Z j n) / m
  max 0 (sign * (avg - K)) * Real.exp (-(r * T))

/-! ## Spread Monte Carlo (Spread.py `_calc_MC`, lines 108–159) -/

/-- One step of the spread simulation, Spread.py lines 150–151:
`S.append(S[-1]*(mu_ + vol_*z) + S[-1])`. -/
noncomputable def spreadStep (mu_ vol_ S z : ℝ) : ℝ := S * (mu_ + vol_ * z) + S

/-- The per-leg spread path (the list `S1`/`S2` of Spread.py lines 144–151,
read at its last element after `nsteps` appends). -/
noncomputable def spreadPath (mu_ vol_ S0 : ℝ) (z : ℕ → ℝ) : ℕ → ℝ
  | 0 => S0
  | t + 1 => spreadStep mu_ vol_ (spreadPath mu_ vol_ S0 z t) (z t)

/-- Shallow embedding of `Spread._calc_MC` (Spread.py lines 108–159).
The per-path fresh standard-normal draws are abstracted as the parameters
`w1 w2 : ℕ → ℕ → ℝ` (path index, time index): the code draws
`u = normal(size=nsteps)`, `v = normal(size=nsteps)` freshly inside the
path loop, correlates `v := rho*u + sqrt(1−rho²)*v`, and scales both by
`sqrt(__['dt'])` where `__ = self.LT_specs(npaths)` — **the builder is
called with the path count** (line 130), so `dt = T/npaths`.  Each path's
discounted payoff `max(sign*(S2[-1] − S1[-1] − K), 0) * exp(−r*T)` is
collected and the price is their mean. -/
noncomputable def Spread_calc_MC (S01 vol1 q1 S02 vol2 q2 rho K sign r T : ℝ)
    (nsteps npaths : ℕ) (w1 w2 : ℕ → ℕ → ℝ) : ℝ :=
  let dt := (ltSpecs vol1 r q1 T npaths).dt
  let vals := (List.range npaths).map fun path =>
    let u : ℕ → ℝ := fun t => w1 path t * Real.sqrt dt
    let v : ℕ → ℝ := fun t =>
      (rho * w1 path t + Real.sqrt (1 - rho ^ 2) * w2 path t) * Real.sqrt dt
    let mu1 := (r - q1) * dt
    let mu2 := (r - q2) * dt
    let S1 := spreadPath mu1 vol1 S01 u
    let S2 := spreadPath mu2 vol2 S02 v
    max (sign * (S2 nsteps - S1 nsteps - K)) 0 * Real.exp (-(r * T))
  vals.sum / vals.length

/-- The claim-side spread price (claim C3 / spec §4.4 spread variant):
identical except that the time increment is `dt = T/nsteps` ("n the step
count, unaffected by the path count m"). -/
noncomputable def spreadSpecPx (S01 vol1 q1 S02 vol2 q2 rho K sign r T : ℝ)
    (nsteps npaths : ℕ) (w1 w2 : ℕ → ℕ → ℝ) : ℝ :=
  let dt := T / nsteps
  let vals := (List.range npaths).map fun path =>
    let u : ℕ → ℝ := fun t => w1 path t * Real.sqrt dt
    let v : ℕ → ℝ := fun t =>
      (rho * w1 path t + Real.sqrt (1 - rho ^ 2) * w2 path t) * Real.sqrt dt
    let mu1 := (r - q1) * dt
    let mu2 := (r - q2) * dt
    let S1 := spreadPath mu1 vol1 S01 u
    let S2 := spreadPath mu2 vol2 S02 v
    max (sign * (S2 nsteps - S1 nsteps - K)) 0 * Real.exp (-(r * T))
  vals.sum / vals.length

/-! ## Infrastructure lemmas: layer lists vs. index functions -/

theorem termS_length (S0 : ℝ) (sp : LTSpecs) (n : ℕ) :
    (termS S0 sp n).length = n + 1 := by
  simp [termS]

theorem termS_getD (S0 : ℝ) (sp : LTSpecs) (n i : ℕ) (hi : i < n + 1) :
    (termS S0 sp n).getD i 0 = S0 * sp.d ^ (n - i) * sp.u ^ i := by
  rw [List.getD_eq_getElem _ _ (by simpa [termS_length] using hi)]
  simp [termS]

theorem layerStep_fst_length (sp : LTSpecs) (comb : ℝ → ℝ → ℝ)
    (SO : List ℝ × List ℝ) :
    (layerStep sp comb SO).1.length = SO.1.length - 1 := by
  simp [layerStep]

theorem layerStep_snd_length (sp : LTSpecs) (comb : ℝ → ℝ → ℝ)
    (SO : List ℝ × List ℝ) (h : SO.1.length = SO.2.length) :
    (layerStep sp comb SO).2.length = SO.1.length - 1 := by
  simp [layerStep, h]

theorem layerStep_fst_getD (sp : LTSpecs) (comb : ℝ → ℝ → ℝ)
    (SO : List ℝ × List ℝ) (j : ℕ) (hj : j + 1 < SO.1.length) :
    (layerStep sp comb SO).1.getD j 0 = sp.d * SO.1.getD (j + 1) 0 := by
  have hj' : j < (layerStep sp comb SO).1.length := by
    simpa [layerStep_fst_length] using Nat.lt_sub_of_add_lt hj
  rw [List.getD_eq_getElem _ _ hj', List.getD_eq_getElem _ _ hj]
  simp [layerStep]

theorem layerStep_snd_getD (sp : LTSpecs) (comb : ℝ → ℝ → ℝ)
    (SO : List ℝ × List ℝ) (j : ℕ) (hlen : SO.1.length = SO.2.length)
    (hj : j + 1 < SO.1.length) :
    (layerStep sp comb SO).2.getD j 0 =
      comb (sp.df_dt * ((1 - sp.p) * SO.2.getD j 0 + sp.p * SO.2.getD (j + 1) 0))
        (sp.d * SO.1.getD (j + 1) 0) := by
  have hj2 : j + 1 < SO.2.length := hlen ▸ hj
  have hj' : j < (layerStep sp comb SO).2.length := by
    simpa [layerStep_snd_length sp comb SO hlen] using Nat.lt_sub_of_add_lt hj
  rw [List.getD_eq_getElem _ _ hj',
    List.getD_eq_getElem _ _ hj, List.getD_eq_getElem _ _ hj2,
    List.getD_eq_getElem _ _ (Nat.lt_of_succ_lt hj2)]
  simp [layerStep]

theorem backSteps_length (step : List ℝ × List ℝ → List ℝ × List ℝ) (k : ℕ)
    (SO : List ℝ × List ℝ) : (backSteps step k SO).length = k + 1 := by
  induction k generalizing SO with
  | zero => rfl
  | succ k ih => simp [backSteps, ih]

theorem backSteps_headD (step : List ℝ × List ℝ → List ℝ × List ℝ) (k : ℕ)
    (SO d : List ℝ × List ℝ) :
    (backSteps step k SO).headD d = step^[k] SO := by
  induction k generalizing SO with
  | zero => rfl
  | succ k ih =>
    rw [backSteps, Function.iterate_succ_apply]
    rcases hcons : backSteps step k (step SO) with _ | ⟨a, l⟩
    · exact absurd (congrArg List.length hcons) (by simp [backSteps_length])
    · have hh : ((a :: l) ++ [SO]).headD d = (a :: l).headD d := rfl
      rw [hh, ← hcons, ih]

theorem backSteps_getLast? (step : List ℝ × List ℝ → List ℝ × List ℝ) (k : ℕ)
    (SO : List ℝ × List ℝ) :
    (backSteps step k SO).getLast? = some SO := by
  induction k generalizing SO with
  | zero => rfl
  | succ k ih => simp [backSteps]

/-- Locality of the function-space backward step: the value of the `k`-th
iterate at index `j` only depends on the initial layers at indices `≤ j + k`. -/
theorem layerStepF_iterate_congr (sp : LTSpecs) (comb : ℝ → ℝ → ℝ) (k : ℕ)
    (g h : (ℕ → ℝ) × (ℕ → ℝ)) (j : ℕ)
    (hagree : ∀ i ≤ j + k, g.1 i = h.1 i ∧ g.2 i = h.2 i) :
    ((layerStepF sp comb)^[k] g).1 j = ((layerStepF sp comb)^[k] h).1 j ∧
      ((layerStepF sp comb)^[k] g).2 j = ((layerStepF sp comb)^[k] h).2 j := by
  induction k generalizing g h j with
  | zero => exact hagree j (by omega)
  | succ k ih =>
    rw [Function.iterate_succ_apply, Function.iterate_succ_apply]
    refine ih _ _ j ?_
    intro i hi
    have h1 := hagree i (by omega)
    have h2 := hagree (i + 1) (by omega)
    constructor
    · simp only [layerStepF, h2.1]
    · simp only [layerStepF, h1.2, h2.2, h2.1]

/-- Correspondence between the list-based backward induction (the code) and
the function-space backward induction, read through `getD`: as long as the
index stays in range, the `k`-th iterates agree. -/
theorem layerStep_iterate_getD (sp : LTSpecs) (comb : ℝ → ℝ → ℝ) (k : ℕ) :
    ∀ (S O : List ℝ), S.length = O.length → ∀ j, j + k < S.length →
      (((layerStep sp comb)^[k] (S, O)).1.getD j 0 =
        ((layerStepF sp comb)^[k] (fun i => S.getD i 0, fun i => O.getD i 0)).1 j ∧
       ((layerStep sp comb)^[k] (S, O)).2.getD j 0 =
        ((layerStepF sp comb)^[k] (fun i => S.getD i 0, fun i => O.getD i 0)).2 j) := by
  induction k with
  | zero => intro S O _ j _; exact ⟨rfl, rfl⟩
  | succ k ih =>
    intro S O hlen j hj
    rw [Function.iterate_succ_apply, Function.iterate_succ_apply]
    have hSO' : (layerStep sp comb (S, O)).1.length =
        (layerStep sp comb (S, O)).2.length := by
      rw [layerStep_fst_length, layerStep_snd_length _ _ _ hlen]
    have hrange : j + k < (layerStep sp comb (S, O)).1.length := by
      rw [layerStep_fst_length]
      show j + k < S.length - 1
      omega
    have hmain := ih (layerStep sp comb (S, O)).1 (layerStep sp comb (S, O)).2
      hSO' j hrange
    rw [Prod.mk.eta] at hmain
    have hagree : ∀ i ≤ j + k,
        ((fun i => (layerStep sp comb (S, O)).1.getD i 0 : ℕ → ℝ)) i =
          (layerStepF sp comb (fun i => S.getD i 0, fun i => O.getD i 0)).1 i ∧
        ((fun i => (layerStep sp comb (S, O)).2.getD i 0 : ℕ → ℝ)) i =
          (layerStepF sp comb (fun i => S.getD i 0, fun i => O.getD i 0)).2 i := by
      intro i hi
      have hi1 : i + 1 < S.length := by omega
      exact ⟨layerStep_fst_getD sp comb (S, O) i hi1,
        layerStep_snd_getD sp comb (S, O) i hlen hi1⟩
    have hcongr := layerStepF_iterate_congr sp comb k
      (fun i => (layerStep sp comb (S, O)).1.getD i 0,
       fun i => (layerStep sp comb (S, O)).2.getD i 0)
      (layerStepF sp comb (fun i => S.getD i 0, fun i => O.getD i 0)) j hagree
    exact ⟨hmain.1.trans hcongr.1, hmain.2.trans hcongr.2⟩

/-- With the trivial combiner (no early exercise) the option component of
the function-space step is exactly `euroF`, independent of the stock layer. -/
theorem layerStepF_snd_euro (sp : LTSpecs) (k : ℕ) (Sf Of : ℕ → ℝ) :
    ((layerStepF sp (fun c _ => c))^[k] (Sf, Of)).2 = (euroF sp)^[k] Of := by
  induction k generalizing Sf Of with
  | zero => rfl
  | succ k ih =>
    rw [Function.iterate_succ_apply, Function.iterate_succ_apply]
    exact ih _ _

/-- The closed form of the backward-induction recursion without early
exercise: `k` steps of discounted expectation produce the discounted
binomial average of the `k+1` reachable terminal entries. -/
theorem euroF_iterate_eq_binom (sp : LTSpecs) (k : ℕ) (g : ℕ → ℝ) (j : ℕ) :
    (euroF sp)^[k] g j = sp.df_dt ^ k *
      ∑ i ∈ Finset.range (k + 1),
        (k.choose i : ℝ) * sp.p ^ i * (1 - sp.p) ^ (k - i) * g (j + i) := by
  induction k generalizing g j with
  | zero => simp
  | succ k ih =>
    rw [Function.iterate_succ_apply, ih]
    have hexp : (∑ i ∈ Finset.range (k + 1),
        (k.choose i : ℝ) * sp.p ^ i * (1 - sp.p) ^ (k - i) * euroF sp g (j + i)) =
        ∑ i ∈ Finset.range (k + 1),
          sp.df_dt * ((k.choose i : ℝ) * sp.p ^ i * (1 - sp.p) ^ (k - i + 1) * g (j + i)
            + (k.choose i : ℝ) * sp.p ^ (i + 1) * (1 - sp.p) ^ (k - i) * g (j + i + 1)) := by
      refine Finset.sum_congr rfl fun i _ => ?_
      simp only [euroF, pow_succ]
      ring
    have hreindex : (∑ i ∈ Finset.range (k + 1),
        (k.choose i : ℝ) * sp.p ^ (i + 1) * (1 - sp.p) ^ (k - i) * g (j + i + 1)) =
        ∑ i ∈ Finset.range (k + 2),
          (if i = 0 then 0 else
            (k.choose (i - 1) : ℝ) * sp.p ^ i * (1 - sp.p) ^ (k + 1 - i) * g (j + i)) := by
      have hs := Finset.sum_range_succ' (fun i =>
        (if i = 0 then (0 : ℝ) else
          (k.choose (i - 1) : ℝ) * sp.p ^ i * (1 - sp.p) ^ (k + 1 - i) * g (j + i))) (k + 1)
      have h0 : (if (0 : ℕ) = 0 then (0 : ℝ) else
          (k.choose (0 - 1) : ℝ) * sp.p ^ 0 * (1 - sp.p) ^ (k + 1 - 0) * g (j + 0)) = 0 :=
        if_pos rfl
      rw [hs, h0, add_zero]
      refine Finset.sum_congr rfl fun i hi => ?_
      rw [if_neg (Nat.succ_ne_zero i)]
      have h1 : i + 1 - 1 = i := by omega
      have hsub : k + 1 - (i + 1) = k - i := by omega
      rw [h1, hsub, Nat.add_assoc]
    have hextend : (∑ i ∈ Finset.range (k + 1),
        (k.choose i : ℝ) * sp.p ^ i * (1 - sp.p) ^ (k - i + 1) * g (j + i)) =
        ∑ i ∈ Finset.range (k + 2),
          (if i = k + 1 then 0 else
            (k.choose i : ℝ) * sp.p ^ i * (1 - sp.p) ^ (k + 1 - i) * g (j + i)) := by
      have hs := Finset.sum_range_succ (fun i =>
        (if i = k + 1 then (0 : ℝ) else
          (k.choose i : ℝ) * sp.p ^ i * (1 - sp.p) ^ (k + 1 - i) * g (j + i))) (k + 1)
      have h0 : (if k + 1 = k + 1 then (0 : ℝ) else
          (k.choose (k + 1) : ℝ) * sp.p ^ (k + 1) * (1 - sp.p) ^ (k + 1 - (k + 1)) *
            g (j + (k + 1))) = 0 := if_pos rfl
      rw [hs, h0, add_zero]
      refine Finset.sum_congr rfl fun i hi => ?_
      have hi' : i ≤ k := Nat.lt_succ_iff.mp (Finset.mem_range.mp hi)
      rw [if_neg (by omega)]
      have hsub : k + 1 - i = k - i + 1 := by omega
      rw [hsub]
    have hsum : (∑ i ∈ Finset.range (k + 2),
        ((if i = k + 1 then 0 else
            (k.choose i : ℝ) * sp.p ^ i * (1 - sp.p) ^ (k + 1 - i) * g (j + i)) +
         (if i = 0 then 0 else
            (k.choose (i - 1) : ℝ) * sp.p ^ i * (1 - sp.p) ^ (k + 1 - i) * g (j + i)))) =
        ∑ i ∈ Finset.range (k + 2),
          ((k + 1).choose i : ℝ) * sp.p ^ i * (1 - sp.p) ^ (k + 1 - i) * g (j + i) := by
      refine Finset.sum_congr rfl fun i hi => ?_
      rcases Nat.eq_zero_or_pos i with h0 | hpos
      · subst h0
        rw [if_neg (Nat.succ_ne_zero k).symm, if_pos rfl, add_zero,
          Nat.choose_zero_right, Nat.choose_zero_right]
      · rcases Nat.lt_or_ge i (k + 1) with hlt | hge
        · rw [if_neg (by omega), if_neg (by omega)]
          obtain ⟨i', rfl⟩ : ∃ i', i = i' + 1 := ⟨i - 1, by omega⟩
          have hchoose : ((k + 1).choose (i' + 1) : ℝ) =
              (k.choose i' : ℝ) + (k.choose (i' + 1) : ℝ) := by
            rw [← Nat.cast_add, Nat.choose_succ_succ']
          simp only [Nat.add_sub_cancel]
          rw [hchoose]
          ring
        · have hik : i = k + 1 := by
            have := Finset.mem_range.mp hi; omega
          subst hik
          rw [if_pos rfl, if_neg (by omega), zero_add]
          simp [Nat.choose_self]
    rw [hexp, ← Finset.mul_sum, Finset.sum_add_distrib, hextend, hreindex,
      ← Finset.sum_add_distrib, hsum]
    ring

/-! ## The log-space binomial sum -/

/-- The cumulative log factorial exponentiates to the factorial. -/
theorem exp_csl (k : ℕ) : Real.exp (csl k) = (k.factorial : ℝ) := by
  induction k with
  | zero => simp [csl]
  | succ k ih =>
    rw [csl, Finset.sum_range_succ, Real.exp_add]
    rw [csl] at ih
    rw [ih, Real.exp_log (by positivity), Nat.factorial_succ]
    push_cast
    ring

/-- For `p ∈ (0,1)` the log-space term of LowExercisePrice.py line 143
exponentiates to the exact binomial weight. -/
theorem exp_tmp_eq (sp : LTSpecs) (n i : ℕ) (hin : i ≤ n)
    (hp0 : 0 < sp.p) (hp1 : sp.p < 1) :
    Real.exp (csl n - csl i - csl (n - i)
        + Real.log sp.p * i + Real.log (1 - sp.p) * (n - i)) =
      (n.choose i : ℝ) * sp.p ^ i * (1 - sp.p) ^ (n - i) := by
  have h1p : (0 : ℝ) < 1 - sp.p := by linarith
  have hcast : ((n : ℝ) - (i : ℝ)) = ((n - i : ℕ) : ℝ) := (Nat.cast_sub hin).symm
  rw [Real.exp_add, Real.exp_add, Real.exp_sub, Real.exp_sub, hcast]
  rw [mul_comm (Real.log sp.p) (i : ℝ), mul_comm (Real.log (1 - sp.p)) ((n - i : ℕ) : ℝ)]
  rw [Real.exp_nat_mul, Real.exp_nat_mul, Real.exp_log hp0, Real.exp_log h1p]
  rw [exp_csl, exp_csl, exp_csl]
  have hfact : (n.factorial : ℝ) =
      (n.choose i : ℝ) * (i.factorial : ℝ) * ((n - i).factorial : ℝ) := by
    rw [← Nat.cast_mul, ← Nat.cast_mul, Nat.choose_mul_factorial_mul_factorial hin]
  rw [hfact]
  have hi0 : (i.factorial : ℝ) ≠ 0 := by positivity
  have hni0 : ((n - i).factorial : ℝ) ≠ 0 := by positivity
  field_simp
  ring

/-- For the derived lattice parameters the per-step discount compounds to
the horizon discount: `df_dt ^ n = df_T` (`n ≥ 1`). -/
theorem ltSpecs_df_pow (vol r q T : ℝ) (n : ℕ) (hn : 1 ≤ n) :
    (ltSpecs vol r q T n).df_dt ^ n = (ltSpecs vol r q T n).df_T := by
  have hn0 : (n : ℝ) ≠ 0 := Nat.cast_ne_zero.mpr (by omega)
  simp only [ltSpecs]
  rw [← Real.exp_nat_mul]
  congr 1
  field_simp
  ring

theorem headD_eq_getD_zero (l : List ℝ) (d : ℝ) : l.headD d = l.getD 0 d := by
  cases l <;> rfl

/-- The value computed by the history branch of `LowExercisePrice._calc_LT`
(the backward loop without early exercise), as a discounted binomial sum
over any terminal option layer of matching length. -/
theorem lep_hist_value (sp : LTSpecs) (n : ℕ) (S O : List ℝ)
    (hS : S.length = n + 1) (hO : O.length = n + 1) :
    ((backSteps (layerStep sp (fun c _ => c)) n (S, O)).headD ([], [])).2.headD 0 =
      sp.df_dt ^ n * ∑ i ∈ Finset.range (n + 1),
        (n.choose i : ℝ) * sp.p ^ i * (1 - sp.p) ^ (n - i) * O.getD i 0 := by
  rw [backSteps_headD, headD_eq_getD_zero]
  have hlen : S.length = O.length := by rw [hS, hO]
  have hrange : 0 + n < S.length := by omega
  have hcorr := (layerStep_iterate_getD sp (fun c _ => c) n S O hlen 0 hrange).2
  rw [hcorr, layerStepF_snd_euro, euroF_iterate_eq_binom]
  refine congrArg _ (Finset.sum_congr rfl fun i _ => ?_)
  rw [Nat.zero_add]

/-- Claim C9 — for every step count `n ≥ 1` and lattice parameters derived
by the builder with risk-neutral probability `p ∈ (0,1)`, the two branches
of `LowExercisePrice._calc_LT` compute the same price in exact arithmetic:
the layer-by-layer discounted backward induction of the history branch
equals the direct log-space binomial sum
`df_T * Σ_i C(n,i)·p^i·(1-p)^(n-i)·O_i` of the no-history branch. -/
theorem C9_lowExercisePrice_branches_agree (vol r q T S0 K sign : ℝ) (n : ℕ)
    (hn : 1 ≤ n) (hp0 : 0 < (ltSpecs vol r q T n).p)
    (hp1 : (ltSpecs vol r q T n).p < 1) :
    (LEP_calc_LT (ltSpecs vol r q T n) S0 K sign n true).px =
      (LEP_calc_LT (ltSpecs vol r q T n) S0 K sign n false).px := by
  have hS : (termS S0 (ltSpecs vol r q T n) n).length = n + 1 := termS_length _ _ _
  have hO : ((termS S0 (ltSpecs vol r q T n) n).map
      (fun s => max (s - 0.01) 0)).length = n + 1 := by
    rw [List.length_map, hS]
  simp only [LEP_calc_LT, if_true, Bool.false_eq_true, if_false]
  rw [lep_hist_value _ _ _ _ hS hO, ← ltSpecs_df_pow vol r q T n hn]
  refine congrArg _ (Finset.sum_congr rfl fun i hi => ?_)
  have hin : i ≤ n := Nat.lt_succ_iff.mp (Finset.mem_range.mp hi)
  rw [exp_tmp_eq _ _ _ hin hp0 hp1]

/-- Witness for C9: the hypotheses hold at
`vol = 1, r = 0, q = 0, T = 1, n = 1` (there `p = (1−e⁻¹)/(e−e⁻¹) ∈ (0,1)`). -/
theorem C9_lowExercisePrice_branches_agree_witness :
    (LEP_calc_LT (ltSpecs 1 0 0 1 1) 1 0 1 1 true).px =
      (LEP_calc_LT (ltSpecs 1 0 0 1 1) 1 0 1 1 false).px := by
  have hlt : Real.exp (-1) < Real.exp 1 := Real.exp_lt_exp.mpr (by norm_num)
  have h1 : Real.exp (-1) < 1 := by
    rw [show (1 : ℝ) = Real.exp 0 from Real.exp_zero.symm]
    exact Real.exp_lt_exp.mpr (by norm_num)
  have h2 : (1 : ℝ) < Real.exp 1 := by
    rw [show (1 : ℝ) = Real.exp 0 from Real.exp_zero.symm]
    exact Real.exp_lt_exp.mpr (by norm_num)
  refine C9_lowExercisePrice_branches_agree 1 0 0 1 1 0 1 1 le_rfl ?_ ?_
  · simp only [ltSpecs]
    norm_num [Real.sqrt_one]
  · simp only [ltSpecs]
    norm_num [Real.sqrt_one]
    rw [div_lt_one (by linarith)]
    linarith

theorem getLast?_map_some {α β : Type} (f : α → β) :
    ∀ (l : List α) (a : α), l.getLast? = some a → (l.map f).getLast? = some (f a)
  | [], a => by intro h; cases h
  | [x], a => by
    intro h
    obtain rfl : x = a := by simpa using h
    rfl
  | x :: y :: t, a => by
    intro h
    rw [List.getLast?_cons_cons] at h
    have := getLast?_map_some f (y :: t) a h
    simpa using this

/-- Claim C10 — the LowExercisePrice lattice valuation is independent of the
contract's right (`sign`) and strike (`K`): the entire result is unchanged
under any replacement of them, and the terminal option layer retained in the
option tree is the fixed payoff `max(S − 0.01, 0)` — a call payoff with
hard-coded strike `0.01` (both branches are built from this same terminal
layer). -/
theorem C10_lowExercisePrice_ignores_right_strike (sp : LTSpecs)
    (S0 K sign K' sign' : ℝ) (n : ℕ) (kh : Bool) :
    LEP_calc_LT sp S0 K sign n kh = LEP_calc_LT sp S0 K' sign' n kh ∧
    ∃ OT, (LEP_calc_LT sp S0 K sign n true).opt_tree = some OT ∧
      OT.getLast? = some ((termS S0 sp n).map fun s => max (s - 0.01) 0) := by
  refine ⟨rfl, (backSteps (layerStep sp fun c _ => c) n
    (termS S0 sp n, (termS S0 sp n).map fun s => max (s - 0.01) 0)).map Prod.snd,
    rfl, ?_⟩
  exact getLast?_map_some Prod.snd _ _ (backSteps_getLast? _ _ _)

/-- The per-node invariant of claim C6: the option value dominates the
immediate-exercise payoff at the node's stock price and is nonnegative. -/
def nodeOK (sign K s o : ℝ) : Prop :=
  max (sign * (s - K)) 0 ≤ o ∧ 0 ≤ o

/-- All layers of a lattice history satisfy `nodeOK` node by node. -/
def layersOK (sign K : ℝ) (L : List (List ℝ × List ℝ)) : Prop :=
  List.Forall₂ (List.Forall₂ (nodeOK sign K)) (L.map Prod.fst) (L.map Prod.snd)

theorem forall₂_zipWith_max (sign K : ℝ) :
    ∀ (C S : List ℝ), C.length = S.length →
      List.Forall₂ (nodeOK sign K) S
        (List.zipWith (fun c s => max c (payoff sign s K)) C S)
  | [], [] => fun _ => List.Forall₂.nil
  | [], s :: S => fun h => by simp at h
  | c :: C, [] => fun h => by simp at h
  | c :: C, s :: S => fun h => by
    refine List.Forall₂.cons ⟨?_, ?_⟩ (forall₂_zipWith_max sign K C S (by simpa using h))
    · exact le_max_right c (payoff sign s K)
    · exact le_trans (le_max_right _ 0) (le_max_right c (payoff sign s K))

theorem amerStep_preserves_nodeOK (sp : LTSpecs) (sign K : ℝ)
    (S O : List ℝ) (h : List.Forall₂ (nodeOK sign K) S O) :
    List.Forall₂ (nodeOK sign K)
      (layerStep sp (fun c s => max c (payoff sign s K)) (S, O)).1
      (layerStep sp (fun c s => max c (payoff sign s K)) (S, O)).2 := by
  have hlen : S.length = O.length := h.length_eq
  refine forall₂_zipWith_max sign K _ _ ?_
  simp [hlen]
  rw [layerStep_fst_length]
  show O.length - 1 = S.length - 1
  omega

theorem terminal_nodeOK (sign K : ℝ) (S : List ℝ) :
    List.Forall₂ (nodeOK sign K) S (S.map fun s => payoff sign s K) := by
  rw [List.forall₂_map_right_iff]
  rw [List.forall₂_same]
  intro s _
  exact ⟨le_rfl, le_max_right _ 0⟩

theorem backSteps_layersOK (sp : LTSpecs) (sign K : ℝ) :
    ∀ (k : ℕ) (S O : List ℝ), List.Forall₂ (nodeOK sign K) S O →
      layersOK sign K
        (backSteps (layerStep sp (fun c s => max c (payoff sign s K))) k (S, O))
  | 0, S, O => fun h => List.Forall₂.cons h List.Forall₂.nil
  | k + 1, S, O => fun h => by
    unfold backSteps layersOK
    rw [List.map_append, List.map_append]
    refine List.rel_append ?_ (List.Forall₂.cons h List.Forall₂.nil)
    have hstep := amerStep_preserves_nodeOK sp sign K S O h
    have := backSteps_layersOK sp sign K k
      (layerStep sp (fun c s => max c (payoff sign s K)) (S, O)).1
      (layerStep sp (fun c s => max c (payoff sign s K)) (S, O)).2 hstep
    simpa [layersOK] using this

/-- Claim C6 — for any lattice parameters with `p ∈ [0,1]`, `df_dt ∈ (0,1]`,
`S0 > 0`, `K ≥ 0`, `sign ∈ {+1,−1}` and `n ≥ 1`, every node of every layer
produced by the early-exercise backward induction of `Boston._calc_LT`
(the terminal layer included) carries an option value that is at least the
immediate-exercise payoff `max(sign·(S−K), 0)` at that node's stock price,
and in particular is nonnegative. -/
theorem C6_lattice_early_exercise_invariant (sp : LTSpecs) (S0 K sign : ℝ)
    (n : ℕ) (hp0 : 0 ≤ sp.p) (hp1 : sp.p ≤ 1) (hdf0 : 0 < sp.df_dt)
    (hdf1 : sp.df_dt ≤ 1) (hS0 : 0 < S0) (hK : 0 ≤ K)
    (hsign : sign = 1 ∨ sign = -1) (hn : 1 ≤ n) :
    layersOK sign K
      (backSteps (layerStep sp (fun c s => max c (payoff sign s K))) n
        (termS S0 sp n, (termS S0 sp n).map fun s => payoff sign s K)) :=
  backSteps_layersOK sp sign K n _ _ (terminal_nodeOK sign K _)

/-- Witness for C6 at `u = 2, d = 1/2, p = 1/2, df_dt = 1, S0 = 1, K = 1,
sign = 1, n = 1`. -/
theorem C6_lattice_early_exercise_invariant_witness :
    layersOK 1 1
      (backSteps (layerStep ⟨1, 2, 1/2, 1, 1/2, 1, 1⟩ (fun c s => max c (payoff 1 s 1))) 1
        (termS 1 ⟨1, 2, 1/2, 1, 1/2, 1, 1⟩ 1,
          (termS 1 ⟨1, 2, 1/2, 1, 1/2, 1, 1⟩ 1).map fun s => payoff 1 s 1)) :=
  C6_lattice_early_exercise_invariant ⟨1, 2, 1/2, 1, 1/2, 1, 1⟩ 1 1 1 1
    (by norm_num) (by norm_num) (by norm_num) (by norm_num) (by norm_num)
    (by norm_num) (Or.inl rfl) le_rfl

/-- Layer-shape invariant of the backward loop: starting from layers of
length `k+1`, the accumulated history pairs the time-ascending layer list
with `[0, …, k]` so that layer `i` has exactly `i+1` nodes. -/
theorem backSteps_shape (sp : LTSpecs) (comb : ℝ → ℝ → ℝ) :
    ∀ (k : ℕ) (S O : List ℝ), S.length = O.length → O.length = k + 1 →
      List.Forall₂ (fun SO i => SO.1.length = i + 1 ∧ SO.2.length = i + 1)
        (backSteps (layerStep sp comb) k (S, O)) (List.range (k + 1))
  | 0, S, O => fun h1 h2 => by
    have : List.range 1 = [0] := rfl
    rw [this]
    exact List.Forall₂.cons ⟨by simp [h1, h2], by simp [h2]⟩ List.Forall₂.nil
  | k + 1, S, O => fun h1 h2 => by
    rw [backSteps, List.range_succ]
    refine List.rel_append ?_
      (List.Forall₂.cons ⟨by simp [h1, h2], by simp [h2]⟩ List.Forall₂.nil)
    have hf : (layerStep sp comb (S, O)).1.length = k + 1 := by
      rw [layerStep_fst_length]
      show S.length - 1 = k + 1
      omega
    have hs : (layerStep sp comb (S, O)).2.length = k + 1 := by
      rw [layerStep_snd_length sp comb (S, O) h1]
      show S.length - 1 = k + 1
      omega
    have := backSteps_shape sp comb k (layerStep sp comb (S, O)).1
      (layerStep sp comb (S, O)).2 (hf.trans hs.symm) hs
    simpa using this

/-- Claim C7 (amended) — the tree shape of a retained lattice history:
length `n+1` with layer `i` carrying `i+1` nodes, in time-ascending order. -/
def treeShape (n : ℕ) (L : List (List ℝ)) : Prop :=
  L.length = n + 1 ∧
    List.Forall₂ (fun layer i => layer.length = i + 1) L (List.range (n + 1))

theorem mapped_layers_shape (sp : LTSpecs) (comb : ℝ → ℝ → ℝ) (S0 : ℝ)
    (O : List ℝ) (n : ℕ) (hO : O.length = n + 1) :
    treeShape n ((backSteps (layerStep sp comb) n (termS S0 sp n, O)).map Prod.fst) ∧
    treeShape n ((backSteps (layerStep sp comb) n (termS S0 sp n, O)).map Prod.snd) := by
  have hshape := backSteps_shape sp comb n (termS S0 sp n) O
    (by rw [termS_length, hO]) hO
  have hlen : (backSteps (layerStep sp comb) n (termS S0 sp n, O)).length = n + 1 :=
    backSteps_length _ _ _
  exact ⟨⟨by simpa using hlen,
      List.forall₂_map_left_iff.mpr (hshape.imp fun _ _ h => h.1)⟩,
    ⟨by simpa using hlen,
      List.forall₂_map_left_iff.mpr (hshape.imp fun _ _ h => h.2)⟩⟩

/-- Claim C7 (amended) — history retention.  For the lattice engine
(`Boston._calc_LT`): with `keep_hist` the result carries both trees, each
with `n+1` layers in time-ascending order, layer `i` holding exactly `i+1`
nodes; without `keep_hist` no tree is attached.  For the shared-increment
basket Monte Carlo variant (`Basket._calc_MC`): no history is ever attached
to the result — even when `keep_hist` is requested (`px_spec.add` at
Basket.py line 192 passes only the price and a sub-method tag), contrary to
the original claim's "single shared increment batch". -/
theorem C7_history_retention (sp : LTSpecs) (S0 K sign r T : ℝ) (n : ℕ)
    {N : ℕ} (bS0 bmu bvol : Fin N → ℝ) (bcorr : Matrix (Fin N) (Fin N) ℝ)
    (bw : Fin N → ℝ) (bK bsign br bT : ℝ) (bns bnp : ℕ)
    (mvn : Matrix (Fin N) (Fin N) ℝ → ℕ → ℕ → Fin N → ℝ) (kh : Bool) :
    (∃ RT OT, (Boston_calc_LT sp S0 K sign r T n true).ref_tree = some RT ∧
      (Boston_calc_LT sp S0 K sign r T n true).opt_tree = some OT ∧
      treeShape n RT ∧ treeShape n OT) ∧
    (Boston_calc_LT sp S0 K sign r T n false).ref_tree = none ∧
    (Boston_calc_LT sp S0 K sign r T n false).opt_tree = none ∧
    (Basket_calc_MC bS0 bmu bvol bcorr bw bK bsign br bT bns bnp mvn kh).hist
      = none := by
  refine ⟨?_, rfl, rfl, rfl⟩
  have hsh := mapped_layers_shape sp (fun c s => max c (payoff sign s K)) S0
    ((termS S0 sp n).map fun s => payoff sign s K) n (by simp [termS_length])
  exact ⟨_, _, rfl, rfl, hsh.1, hsh.2⟩

/-- Counterexample to claim C7 as stated: at a concrete basket valuation
with `keep_hist` requested, the result carries no history at all — in
particular not the shared increment batch the claim promises. -/
theorem C7_counterexample :
    (Basket_calc_MC (fun _ : Fin 1 => 1) (fun _ => 0) (fun _ => 0) 1
      (fun _ => 1) 0 1 0 1 1 1 (fun _ _ _ _ => 0) true).hist = none := rfl

/-- Claim C8 — if the derived risk-neutral probability `p` lies outside
`[0,1]`, the lattice valuation refuses to run: it reports the
`InvalidLatticeParameters` condition instead of backward-inducing a price
from the out-of-range `p` (and in particular never clamps `p`). -/
theorem C8_out_of_range_p_refused (vol r q T S0 K sign : ℝ) (n : ℕ)
    (kh : Bool)
    (hp : (ltSpecs vol r q T n).p < 0 ∨ 1 < (ltSpecs vol r q T n).p) :
    Boston_calc_LT_full vol r q T S0 K sign n kh =
      Except.error LatticeError.invalidLatticeParameters := by
  have hnot : ¬ (0 ≤ (ltSpecs vol r q T n).p ∧ (ltSpecs vol r q T n).p ≤ 1) := by
    rintro ⟨h0, h1⟩
    rcases hp with h | h <;> linarith
  simp only [Boston_calc_LT_full, ltSpecsChecked]
  rw [if_neg hnot]
  rfl

/-- Witness for C8: at `vol = 1, r = 2, q = 0, T = 1, n = 1` the derived
`p = (e² − e⁻¹)/(e − e⁻¹)` exceeds `1`, and the valuation reports
`InvalidLatticeParameters`. -/
theorem C8_out_of_range_p_refused_witness :
    Boston_calc_LT_full 1 2 0 1 1 0 1 1 false =
      Except.error LatticeError.invalidLatticeParameters := by
  refine C8_out_of_range_p_refused 1 2 0 1 1 0 1 1 false (Or.inr ?_)
  have h1 : Real.exp (-1) < Real.exp 1 := Real.exp_lt_exp.mpr (by norm_num)
  have h2 : Real.exp 1 < Real.exp 2 := Real.exp_lt_exp.mpr (by norm_num)
  simp only [ltSpecs]
  norm_num [Real.sqrt_one]
  rw [one_lt_div (by linarith)]
  linarith

theorem specAmerStep_eq_layerStepF (sp : LTSpecs) (sign K : ℝ) :
    specAmerStep sp sign K = layerStepF sp (fun c s => max c (payoff sign s K)) :=
  rfl

/-- The reported Boston price is `exp(r·T)` times the value of the
claim's index-function backward recursion (shared helper). -/
theorem boston_px_eq_spec (sp : LTSpecs) (S0 K sign r T : ℝ) (n : ℕ)
    (kh : Bool) :
    (Boston_calc_LT sp S0 K sign r T n kh).px =
      Real.exp (r * T) * specAmerValue sp S0 K sign n := by
  simp only [Boston_calc_LT]
  congr 1
  rw [backSteps_headD, headD_eq_getD_zero]
  have hS : (termS S0 sp n).length = n + 1 := termS_length _ _ _
  have hlen : (termS S0 sp n).length =
      ((termS S0 sp n).map fun s => payoff sign s K).length := by simp
  have hrange : 0 + n < (termS S0 sp n).length := by omega
  have hcorr := (layerStep_iterate_getD sp (fun c s => max c (payoff sign s K))
    n _ _ hlen 0 hrange).2
  rw [hcorr]
  unfold specAmerValue
  rw [specAmerStep_eq_layerStepF]
  refine (layerStepF_iterate_congr sp _ n _ _ 0 ?_).2
  intro i hi
  have hi' : i < n + 1 := by omega
  constructor
  · exact termS_getD S0 sp n i hi'
  · have hm : i < ((termS S0 sp n).map fun s => payoff sign s K).length := by
      simpa [termS_length] using hi'
    show (List.map (fun s => payoff sign s K) (termS S0 sp n)).getD i 0 =
      max (sign * (specTermS S0 sp n i - K)) 0
    rw [List.getD_eq_getElem _ _ hm, List.getElem_map,
      ← List.getD_eq_getElem _ (0 : ℝ) (by simpa [termS_length] using hi'),
      termS_getD S0 sp n i hi']
    rfl

/-- Claim C1 (amended) — for every lattice parameter record, `S0 > 0`,
`K ≥ 0`, `sign ∈ {+1,−1}` and `n ≥ 1`, `Boston._calc_LT` reports as its
price the single value remaining after the claim's backward recursion
(terminal layer `S_i = S0·d^(n−i)·u^i`, `O_i = max(sign·(S_i−K),0)`;
update `O_j ← max(df_dt·((1−p)·O_j + p·O_{j+1}), max(sign·(d·S_{j+1}−K),0))`,
`S_j ← d·S_{j+1}`) **multiplied by the terminal rescaling `exp(r·T)`**
applied by the engine itself at Boston.py line 118 — not the remaining
value directly. -/
theorem C1_boston_price_is_rescaled_lattice_value (sp : LTSpecs)
    (S0 K sign r T : ℝ) (n : ℕ) (kh : Bool) (hS0 : 0 < S0) (hK : 0 ≤ K)
    (hsign : sign = 1 ∨ sign = -1) (hn : 1 ≤ n) :
    (Boston_calc_LT sp S0 K sign r T n kh).px =
      Real.exp (r * T) * specAmerValue sp S0 K sign n :=
  boston_px_eq_spec sp S0 K sign r T n kh

/-- Witness for C1 (amended): concrete instantiation at
`u = 2, d = 1/2, p = 1/2, df_dt = 1, S0 = 1, K = 0, sign = 1, n = 1,
r = 1, T = 1`. -/
theorem C1_boston_price_is_rescaled_lattice_value_witness :
    (Boston_calc_LT ⟨1, 2, 1/2, 1, 1/2, 1, 1⟩ 1 0 1 1 1 1 false).px =
      Real.exp (1 * 1) * specAmerValue ⟨1, 2, 1/2, 1, 1/2, 1, 1⟩ 1 0 1 1 :=
  C1_boston_price_is_rescaled_lattice_value ⟨1, 2, 1/2, 1, 1/2, 1, 1⟩ 1 0 1 1 1 1
    false one_pos le_rfl (Or.inl rfl) le_rfl

/-- Counterexample to claim C1 as stated: at
`u = 2, d = 1/2, p = 1/2, df_dt = 1, S0 = 1, K = 0, sign = +1, n = 1,
r = 1, T = 1` the engine's reported price is `e · 5/4`, not the single
remaining backward-induction value `5/4`: the engine rescales by
`exp(r·T)` before reporting. -/
theorem C1_counterexample :
    ¬ ((Boston_calc_LT ⟨1, 2, 1/2, 1, 1/2, 1, 1⟩ 1 0 1 1 1 1 false).px =
      specAmerValue ⟨1, 2, 1/2, 1, 1/2, 1, 1⟩ 1 0 1 1) := by
  have hval : specAmerValue ⟨1, 2, 1/2, 1, 1/2, 1, 1⟩ 1 0 1 1 = 5 / 4 := by
    unfold specAmerValue specAmerStep specTermS
    norm_num
  have hpx : (Boston_calc_LT ⟨1, 2, 1/2, 1, 1/2, 1, 1⟩ 1 0 1 1 1 1 false).px =
      Real.exp (1 * 1) * (5 / 4) := by
    simp only [Boston_calc_LT]
    norm_num [backSteps, layerStep, termS, payoff, List.range_succ]
  rw [hpx, hval]
  intro h
  have hone : (1 : ℝ) < Real.exp 1 := Real.one_lt_exp_iff.mpr one_pos
  rw [one_mul] at h
  linarith

/-! ## Basket Monte Carlo: path characterisation -/

/-- The function-space form of `one_path`: prepend `S0` and step with `calS`. -/
noncomputable def pathF (dlt mu sig S0 : ℝ) (z : ℕ → ℝ) : ℕ → ℝ
  | 0 => S0
  | t + 1 => calS dlt mu sig (pathF dlt mu sig S0 z t) (z t)

theorem pathF_congr (dlt mu sig S0 : ℝ) (z z' : ℕ → ℝ) :
    ∀ t, (∀ i < t, z i = z' i) →
      pathF dlt mu sig S0 z t = pathF dlt mu sig S0 z' t
  | 0, _ => rfl
  | t + 1, h => by
    rw [pathF, pathF, pathF_congr dlt mu sig S0 z z' t fun i hi => h i (by omega),
      h t (by omega)]

theorem getLastD_eq_getD (l : List ℝ) (d : ℝ) (m : ℕ) (h : l.length = m + 1) :
    l.getLastD d = l.getD m 0 := by
  have hm : m < l.length := by omega
  rw [List.getLastD_eq_getLast?, List.getLast?_eq_getElem?, h]
  simp only [Nat.add_sub_cancel, List.getD_eq_getElem?_getD,
    List.getElem?_eq_getElem hm]
  rfl

theorem one_path_spec (dlt mu sig S0 : ℝ) (zs : List ℝ) :
    (one_path dlt mu sig S0 zs).length = zs.length + 1 ∧
    ∀ t, t ≤ zs.length → (one_path dlt mu sig S0 zs).getD t 0 =
      pathF dlt mu sig S0 (fun i => zs.getD i 0) t := by
  induction zs using List.reverseRecOn with
  | nil =>
    refine ⟨rfl, fun t ht => ?_⟩
    obtain rfl : t = 0 := Nat.le_zero.mp ht
    rfl
  | append_singleton ys z ih =>
    have hstep : one_path dlt mu sig S0 (ys ++ [z]) =
        one_path dlt mu sig S0 ys ++
          [calS dlt mu sig ((one_path dlt mu sig S0 ys).getLastD 0) z] := by
      unfold one_path
      rw [List.foldl_append]
      rfl
    have hlast : (one_path dlt mu sig S0 ys).getLastD 0 =
        pathF dlt mu sig S0 (fun i => ys.getD i 0) ys.length := by
      rw [getLastD_eq_getD _ _ ys.length ih.1]
      exact ih.2 ys.length le_rfl
    have hagree : ∀ t ≤ ys.length, ∀ i < t, ys.getD i 0 = (ys ++ [z]).getD i 0 :=
      fun t ht i hi => (List.getD_append ys [z] 0 i (by omega)).symm
    constructor
    · rw [hstep]
      simp [ih.1]
    · intro t ht
      rcases Nat.lt_or_ge t (ys.length + 1) with hlt | hge
      · have ht' : t ≤ ys.length := by omega
        rw [hstep, List.getD_append _ _ _ _ (by omega), ih.2 t ht',
          pathF_congr dlt mu sig S0 _ _ t (hagree t ht')]
      · have ht2 : t = ys.length + 1 := by
          simp only [List.length_append, List.length_cons, List.length_nil] at ht
          omega
        subst ht2
        rw [hstep, List.getD_append_right _ _ _ _ (by rw [ih.1]),
          ih.1]
        simp only [Nat.sub_self, List.getD_cons_zero]
        rw [pathF, hlast]
        have hz : (ys ++ [z]).getD ys.length 0 = z := by
          rw [List.getD_append_right _ _ _ _ le_rfl, Nat.sub_self,
            List.getD_cons_zero]
        rw [hz, pathF_congr dlt mu sig S0 _ _ ys.length
          (hagree ys.length le_rfl)]

/-- The spec-side Euler recursion coincides with the code's `calS`
recursion (the two differ only in association of the three summands). -/
theorem basketSpecEuler_eq_pathF {N : ℕ} (dt : ℝ) (mu vol S0 : Fin N → ℝ)
    (Z : ℕ → Fin N → ℝ) (j : Fin N) :
    ∀ t, basketSpecEuler dt mu vol S0 Z j t =
      pathF dt (mu j) (vol j) (S0 j) (fun i => Z i j) t
  | 0 => rfl
  | t + 1 => by
    rw [basketSpecEuler, pathF, basketSpecEuler_eq_pathF dt mu vol S0 Z j t, calS]
    ring

/-- The basket Monte Carlo price in closed form: it does not depend on the
path count (`npaths ≥ 1`) nor on `keep_hist`, only on the single shared
increment batch. -/
theorem Basket_calc_MC_px_closed {N : ℕ} (S0 mu vol : Fin N → ℝ)
    (corrM : Matrix (Fin N) (Fin N) ℝ) (weight : Fin N → ℝ)
    (K sign r T : ℝ) (nsteps npaths : ℕ)
    (mvn : Matrix (Fin N) (Fin N) ℝ → ℕ → ℕ → Fin N → ℝ) (kh : Bool)
    (hm : 1 ≤ npaths) :
    (Basket_calc_MC S0 mu vol corrM weight K sign r T nsteps npaths mvn kh).px =
      max 0 (sign * ((∑ j, pathF (T / nsteps) (mu j) (vol j) (S0 j)
          (fun t => mvn (Matrix.diagonal vol * corrM * Matrix.diagonal vol) nsteps t j)
          nsteps * weight j) - K)) * Real.exp (-(r * T)) := by
  simp only [Basket_calc_MC]
  have hterm : ∀ j : Fin N,
      (one_path (T / nsteps) (mu j) (vol j) (S0 j)
        ((List.range nsteps).map fun t =>
          mvn (Matrix.diagonal vol * corrM * Matrix.diagonal vol) nsteps t j)).getD
            nsteps 0 =
      pathF (T / nsteps) (mu j) (vol j) (S0 j)
        (fun t => mvn (Matrix.diagonal vol * corrM * Matrix.diagonal vol) nsteps t j)
        nsteps := by
    intro j
    rw [(one_path_spec _ _ _ _ _).2 nsteps (by simp)]
    refine pathF_congr _ _ _ _ _ _ nsteps fun i hi => ?_
    rw [List.getD_eq_getElem _ _ (by simpa using hi)]
    simp
  have hw : ((List.range (nsteps + 1)).map fun t =>
      ∑ j, (one_path (T / nsteps) (mu j) (vol j) (S0 j)
        ((List.range nsteps).map fun t' =>
          mvn (Matrix.diagonal vol * corrM * Matrix.diagonal vol) nsteps t' j)).getD t 0
            * weight j).getD nsteps 0 =
      ∑ j, pathF (T / nsteps) (mu j) (vol j) (S0 j)
        (fun t => mvn (Matrix.diagonal vol * corrM * Matrix.diagonal vol) nsteps t j)
        nsteps * weight j := by
    rw [List.getD_eq_getElem _ _ (by simp)]
    simp only [List.getElem_map, List.getElem_range]
    exact Finset.sum_congr rfl fun j _ => by rw [hterm j]
  congr 2
  rw [List.map_map]
  simp only [Function.comp_def]
  rw [List.map_const', List.length_range, List.sum_replicate, List.length_replicate,
    nsmul_eq_mul, hw]
  have hnp : (npaths : ℝ) ≠ 0 := Nat.cast_ne_zero.mpr (by omega)
  rw [mul_div_cancel_left₀ _ hnp]

/-- Claim C2 — the basket Monte Carlo valuation computes exactly the
claim's description: one increment batch requested from the sampler with
covariance `diag(vol)·Corr·diag(vol)` and count `n`, the additive Euler
update `S_{t+1} = S_t + mu·S_t·dt + vol·S_t·Z_t·√dt` with `dt = T/n`
re-applying the same batch on every path, the across-paths average of the
terminal basket value `weight · S(T)`, the payoff
`max(0, sign·(average − K))` applied exactly once to that scalar average,
and the discounting `exp(−r·T)`.  (The normal sampler itself is abstracted
as the parameter `mvn`, fixed-seed determinism being implicit in its being
a function.) -/
theorem C2_basket_price_follows_spec {N : ℕ} (S0 mu vol : Fin N → ℝ)
    (corrM : Matrix (Fin N) (Fin N) ℝ) (weight : Fin N → ℝ)
    (K sign r T : ℝ) (nsteps npaths : ℕ)
    (mvn : Matrix (Fin N) (Fin N) ℝ → ℕ → ℕ → Fin N → ℝ) (kh : Bool)
    (hm : 1 ≤ npaths) :
    (Basket_calc_MC S0 mu vol corrM weight K sign r T nsteps npaths mvn kh).px =
      basketSpecPx S0 mu vol corrM weight K sign r T nsteps npaths mvn := by
  have hnp : (npaths : ℝ) ≠ 0 := Nat.cast_ne_zero.mpr (by omega)
  rw [Basket_calc_MC_px_closed S0 mu vol corrM weight K sign r T nsteps npaths
    mvn kh hm]
  simp only [basketSpecPx]
  congr 2
  rw [Finset.sum_const, Finset.card_univ, Fintype.card_fin, nsmul_eq_mul,
    mul_div_cancel_left₀ _ hnp]
  congr 1
  congr 1
  exact Finset.sum_congr rfl fun j _ => by
    rw [basketSpecEuler_eq_pathF]
    ring

/-- Witness for C2 at a concrete one-asset, one-step, one-path valuation. -/
theorem C2_basket_price_follows_spec_witness :
    (Basket_calc_MC (fun _ : Fin 1 => 1) (fun _ => 0) (fun _ => 0) 1
      (fun _ => 1) 0 1 0 1 1 1 (fun _ _ _ _ => 0) false).px =
      basketSpecPx (fun _ : Fin 1 => 1) (fun _ => 0) (fun _ => 0) 1
        (fun _ => 1) 0 1 0 1 1 1 (fun _ _ _ _ => 0) :=
  C2_basket_price_follows_spec (fun _ : Fin 1 => 1) (fun _ => 0) (fun _ => 0) 1
    (fun _ => 1) 0 1 0 1 1 1 (fun _ _ _ _ => 0) false le_rfl

/-- Claim C4 — with every input other than the path count held fixed (and
the same abstract sampler, i.e. the same fixed seed), the basket Monte
Carlo price is identical for every path count `m ≥ 1`: all paths re-apply
the single shared increment batch. -/
theorem C4_basket_price_path_count_invariant {N : ℕ} (S0 mu vol : Fin N → ℝ)
    (corrM : Matrix (Fin N) (Fin N) ℝ) (weight : Fin N → ℝ)
    (K sign r T : ℝ) (nsteps m m' : ℕ)
    (mvn : Matrix (Fin N) (Fin N) ℝ → ℕ → ℕ → Fin N → ℝ) (kh : Bool)
    (hm : 1 ≤ m) (hm' : 1 ≤ m') :
    (Basket_calc_MC S0 mu vol corrM weight K sign r T nsteps m mvn kh).px =
      (Basket_calc_MC S0 mu vol corrM weight K sign r T nsteps m' mvn kh).px := by
  rw [Basket_calc_MC_px_closed S0 mu vol corrM weight K sign r T nsteps m mvn kh hm,
    Basket_calc_MC_px_closed S0 mu vol corrM weight K sign r T nsteps m' mvn kh hm']

/-- Witness for C4: path counts `1` and `2` at a concrete valuation. -/
theorem C4_basket_price_path_count_invariant_witness :
    (Basket_calc_MC (fun _ : Fin 1 => 1) (fun _ => 0) (fun _ => 0) 1
      (fun _ => 1) 0 1 0 1 1 1 (fun _ _ _ _ => 0) false).px =
      (Basket_calc_MC (fun _ : Fin 1 => 1) (fun _ => 0) (fun _ => 0) 1
        (fun _ => 1) 0 1 0 1 1 2 (fun _ _ _ _ => 0) false).px :=
  C4_basket_price_path_count_invariant (fun _ : Fin 1 => 1) (fun _ => 0)
    (fun _ => 0) 1 (fun _ => 1) 0 1 0 1 1 1 2 (fun _ _ _ _ => 0) false
    le_rfl (by norm_num)

/-- Claim C3, the failing input — `Spread._calc_MC` derives its time
increment from `self.LT_specs(npaths)` (Spread.py line 130), so the Euler
update runs with `dt = T/npaths`, not `dt = T/nsteps`.  At
`T = 1, r = 1, q = 0, vol = 0` (so the draws are irrelevant), `S1(0) = 1`,
`S2(0) = 2`, `K = 0`, `sign = +1`, `nsteps = 2`, `npaths = 8`, the code
returns `(1 + 1/8)² · e⁻¹ = (81/64)·e⁻¹` while the claim's `dt = T/nsteps`
prescribes `(1 + 1/2)² · e⁻¹ = (9/4)·e⁻¹`; the two differ. -/
theorem C3_spread_dt_uses_path_count :
    Spread_calc_MC 1 0 0 2 0 0 0 0 1 1 1 2 8 (fun _ _ => 0) (fun _ _ => 0) =
      81 / 64 * Real.exp (-1) ∧
    spreadSpecPx 1 0 0 2 0 0 0 0 1 1 1 2 8 (fun _ _ => 0) (fun _ _ => 0) =
      9 / 4 * Real.exp (-1) ∧
    Spread_calc_MC 1 0 0 2 0 0 0 0 1 1 1 2 8 (fun _ _ => 0) (fun _ _ => 0) ≠
      spreadSpecPx 1 0 0 2 0 0 0 0 1 1 1 2 8 (fun _ _ => 0) (fun _ _ => 0) := by
  have h1 : Spread_calc_MC 1 0 0 2 0 0 0 0 1 1 1 2 8 (fun _ _ => 0)
      (fun _ _ => 0) = 81 / 64 * Real.exp (-1) := by
    norm_num [Spread_calc_MC, ltSpecs, spreadPath, spreadStep, List.range_succ]
    ring
  have h2 : spreadSpecPx 1 0 0 2 0 0 0 0 1 1 1 2 8 (fun _ _ => 0)
      (fun _ _ => 0) = 9 / 4 * Real.exp (-1) := by
    norm_num [spreadSpecPx, spreadPath, spreadStep, List.range_succ]
    ring
  refine ⟨h1, h2, ?_⟩
  rw [h1, h2]
  intro h
  have hpos := Real.exp_pos (-1)
  nlinarith

/-! ## Numeric bounds for the claim-C5 scenario

The scenario `S0 = 50, vol = 0.3, K = 52, T = 2, r = 0.05, q = 0, n = 2`
has `dt = 1`, so every derived lattice quantity is a rational function of
`exp(1/20)`; rational bounds on `exp(1/20)` (from the Taylor remainder
estimate) are propagated by interval arithmetic. -/

theorem interval_mul {a b la ha lb hb : ℝ} (h1 : la ≤ a) (h2 : a ≤ ha)
    (h3 : lb ≤ b) (h4 : b ≤ hb) (hla : 0 ≤ la) (hlb : 0 ≤ lb) :
    la * lb ≤ a * b ∧ a * b ≤ ha * hb :=
  ⟨mul_le_mul h1 h3 hlb (le_trans hla h1),
   mul_le_mul h2 h4 (le_trans hlb h3) (le_trans hla (le_trans h1 h2))⟩

theorem c5_x_bounds :
    (1.051271096376021 : ℝ) ≤ Real.exp (1 / 20) ∧
      Real.exp (1 / 20) ≤ 1.051271096376025 := by
  have h8 : (0 : ℕ) < 8 := by norm_num
  have habs : |(1 / 20 : ℝ)| ≤ 1 := by rw [abs_of_nonneg] <;> norm_num
  have hb := Real.exp_bound habs h8
  have hsum : (∑ i ∈ Finset.range 8, (1 / 20 : ℝ) ^ i / i.factorial) =
      2260653365647 / 2150400000000 := by
    simp [Finset.sum_range_succ, Nat.factorial]
    norm_num
  rw [hsum] at hb
  rw [abs_of_nonneg (by norm_num : (0:ℝ) ≤ 1/20)] at hb
  norm_num [Nat.factorial] at hb
  have h := abs_le.mp hb
  constructor
  · linarith [h.1]
  · linarith [h.2]

/-- At the C5 scenario (`vol = 0.3, r = 0.05, q = 0, T = 2, n = 2`) the
derived lattice parameters are the indicated rational functions of
`exp(1/20)` (here `dt = 1`, `u = e^{0.3} = (e^{0.05})^6`). -/
theorem ltSpecs_C5 :
    ltSpecs 0.3 0.05 0 2 2 =
      { dt := 1
        u := Real.exp (1 / 20) ^ 6
        d := (Real.exp (1 / 20) ^ 6)⁻¹
        a := Real.exp (1 / 20)
        p := (Real.exp (1 / 20) - (Real.exp (1 / 20) ^ 6)⁻¹) /
          (Real.exp (1 / 20) ^ 6 - (Real.exp (1 / 20) ^ 6)⁻¹)
        df_dt := (Real.exp (1 / 20))⁻¹
        df_T := (Real.exp (1 / 20) ^ 2)⁻¹ } := by
  have hs : Real.sqrt ((2 : ℝ) / ((2 : ℕ) : ℝ)) = 1 := by
    norm_num [Real.sqrt_one]
  have hu : Real.exp ((0.3 : ℝ) * Real.sqrt ((2 : ℝ) / ((2 : ℕ) : ℝ))) =
      Real.exp (1 / 20) ^ 6 := by
    rw [← Real.exp_nat_mul, hs]
    norm_num
  have hd : Real.exp (-((0.3 : ℝ) * Real.sqrt ((2 : ℝ) / ((2 : ℕ) : ℝ)))) =
      (Real.exp (1 / 20) ^ 6)⁻¹ := by
    rw [Real.exp_neg, hu]
  have ha : Real.exp (((0.05 : ℝ) - 0) * ((2 : ℝ) / ((2 : ℕ) : ℝ))) =
      Real.exp (1 / 20) := by
    norm_num
  have hdf : Real.exp (-((0.05 : ℝ) * ((2 : ℝ) / ((2 : ℕ) : ℝ)))) =
      (Real.exp (1 / 20))⁻¹ := by
    rw [Real.exp_neg]
    norm_num
  have hdT : Real.exp (-((0.05 : ℝ) * 2)) = (Real.exp (1 / 20) ^ 2)⁻¹ := by
    rw [Real.exp_neg, ← Real.exp_nat_mul]
    norm_num
  simp only [ltSpecs, LTSpecs.mk.injEq]
  refine ⟨by norm_num, hu, hd, ha, ?_, hdf, hdT⟩
  rw [ha, hd, hu]

theorem interval_inv {a la ha lb hb : ℝ} (h1 : la ≤ a) (h2 : a ≤ ha)
    (h0 : 0 < la) (hlo : lb ≤ ha⁻¹) (hhi : la⁻¹ ≤ hb) :
    lb ≤ a⁻¹ ∧ a⁻¹ ≤ hb :=
  ⟨le_trans hlo (inv_anti₀ (lt_of_lt_of_le h0 h1) h2),
   le_trans (inv_anti₀ h0 h1) hhi⟩

theorem c5_x2_bounds :
    (1.105170918075641 : ℝ) ≤ Real.exp (1 / 20) ^ 2 ∧
      Real.exp (1 / 20) ^ 2 ≤ 1.10517091807565 := by
  obtain ⟨h1, h2⟩ := c5_x_bounds
  have h := interval_mul h1 h2 h1 h2 (by norm_num) (by norm_num)
  rw [show Real.exp (1 / 20) ^ 2 = Real.exp (1 / 20) * Real.exp (1 / 20) by ring]
  exact ⟨le_trans (by norm_num) h.1, le_trans h.2 (by norm_num)⟩

theorem c5_X_bounds :
    (1.349858807575977 : ℝ) ≤ Real.exp (1 / 20) ^ 6 ∧
      Real.exp (1 / 20) ^ 6 ≤ 1.349858807576013 := by
  obtain ⟨h1, h2⟩ := c5_x_bounds
  obtain ⟨g1, g2⟩ := c5_x2_bounds
  have h3 := interval_mul g1 g2 h1 h2 (by norm_num) (by norm_num)
  have h3lo : (1.161834242728272 : ℝ) ≤ Real.exp (1 / 20) ^ 2 * Real.exp (1 / 20) :=
    le_trans (by norm_num) h3.1
  have h3hi : Real.exp (1 / 20) ^ 2 * Real.exp (1 / 20) ≤ 1.161834242728287 :=
    le_trans h3.2 (by norm_num)
  have h6 := interval_mul h3lo h3hi h3lo h3hi (by norm_num) (by norm_num)
  rw [show Real.exp (1 / 20) ^ 6 =
    Real.exp (1 / 20) ^ 2 * Real.exp (1 / 20) *
      (Real.exp (1 / 20) ^ 2 * Real.exp (1 / 20)) by ring]
  exact ⟨le_trans (by norm_num) h6.1, le_trans h6.2 (by norm_num)⟩

theorem c5_iX_bounds :
    (0.740818220681712 : ℝ) ≤ (Real.exp (1 / 20) ^ 6)⁻¹ ∧
      (Real.exp (1 / 20) ^ 6)⁻¹ ≤ 0.740818220681733 := by
  obtain ⟨h1, h2⟩ := c5_X_bounds
  exact interval_inv h1 h2 (by norm_num) (by norm_num) (by norm_num)

theorem c5_ix_bounds :
    (0.951229424500713 : ℝ) ≤ (Real.exp (1 / 20))⁻¹ ∧
      (Real.exp (1 / 20))⁻¹ ≤ 0.951229424500717 := by
  obtain ⟨h1, h2⟩ := c5_x_bounds
  exact interval_inv h1 h2 (by norm_num) (by norm_num) (by norm_num)

theorem c5_p_bounds :
    (0.509740865181727 : ℝ) ≤ (Real.exp (1 / 20) - (Real.exp (1 / 20) ^ 6)⁻¹) /
        (Real.exp (1 / 20) ^ 6 - (Real.exp (1 / 20) ^ 6)⁻¹) ∧
      (Real.exp (1 / 20) - (Real.exp (1 / 20) ^ 6)⁻¹) /
        (Real.exp (1 / 20) ^ 6 - (Real.exp (1 / 20) ^ 6)⁻¹) ≤ 0.509740865181817 := by
  obtain ⟨hx1, hx2⟩ := c5_x_bounds
  obtain ⟨hX1, hX2⟩ := c5_X_bounds
  obtain ⟨hi1, hi2⟩ := c5_iX_bounds
  have hn1 : (0.310452875694288 : ℝ) ≤
      Real.exp (1 / 20) - (Real.exp (1 / 20) ^ 6)⁻¹ := by linarith
  have hn2 : Real.exp (1 / 20) - (Real.exp (1 / 20) ^ 6)⁻¹ ≤
      0.310452875694313 := by linarith
  have hd1 : (0.609040586894244 : ℝ) ≤
      Real.exp (1 / 20) ^ 6 - (Real.exp (1 / 20) ^ 6)⁻¹ := by linarith
  have hd2 : Real.exp (1 / 20) ^ 6 - (Real.exp (1 / 20) ^ 6)⁻¹ ≤
      0.609040586894301 := by linarith
  have hid : (1.641926698349169 : ℝ) ≤
      (Real.exp (1 / 20) ^ 6 - (Real.exp (1 / 20) ^ 6)⁻¹)⁻¹ ∧
      (Real.exp (1 / 20) ^ 6 - (Real.exp (1 / 20) ^ 6)⁻¹)⁻¹ ≤
        1.641926698349323 :=
    interval_inv hd1 hd2 (by norm_num) (by norm_num) (by norm_num)
  have hid1 := hid.1
  have hid2 := hid.2
  have h := interval_mul hn1 hn2 hid1 hid2 (by norm_num) (by norm_num)
  rw [div_eq_mul_inv]
  exact ⟨le_trans (by norm_num) h.1, le_trans h.2 (by norm_num)⟩

set_option maxHeartbeats 1600000 in
/-- Tight bounds on the time-0 value of the claim-C5 early-exercise
backward induction: it lies in `[7.428401902703, 7.428401902706]` (within
the 8-significant-digit band of `7.4284019027`). -/
theorem c5_value_bounds :
    (7.428401902703 : ℝ) ≤ specAmerValue (ltSpecs 0.3 0.05 0 2 2) 50 52 (-1) 2 ∧
      specAmerValue (ltSpecs 0.3 0.05 0 2 2) 50 52 (-1) 2 ≤ 7.428401902706 := by
  obtain ⟨hx1, hx2⟩ := c5_x_bounds
  obtain ⟨hX1, hX2⟩ := c5_X_bounds
  obtain ⟨hi1, hi2⟩ := c5_iX_bounds
  obtain ⟨hv1, hv2⟩ := c5_ix_bounds
  obtain ⟨hp1, hp2⟩ := c5_p_bounds
  rw [ltSpecs_C5]
  unfold specAmerValue
  rw [Function.iterate_succ_apply', Function.iterate_succ_apply',
    Function.iterate_zero_apply]
  simp only [specAmerStep, specTermS]
  norm_num
  set X := Real.exp (1 / 20) ^ 6 with hXdef
  set P := (Real.exp (1 / 20) - X⁻¹) / (X - X⁻¹) with hPdef
  have hXpos : (0 : ℝ) < X := lt_of_lt_of_le (by norm_num) hX1
  have hq1 : (0.490259134818183 : ℝ) ≤ 1 - P := by linarith
  have hq2 : 1 - P ≤ 0.490259134818273 := by linarith
  have hiX2 : (0.548811636094017 : ℝ) ≤ (X ^ 2)⁻¹ ∧
      (X ^ 2)⁻¹ ≤ 0.548811636094049 := by
    have h := interval_mul hi1 hi2 hi1 hi2 (by norm_num) (by norm_num)
    rw [show ((X : ℝ) ^ 2)⁻¹ = X⁻¹ * X⁻¹ by rw [← inv_pow]; ring]
    exact ⟨le_trans (by norm_num) h.1, le_trans h.2 (by norm_num)⟩
  have hO0 : (24.5594181952975 : ℝ) ≤ (52 - 50 * (X ^ 2)⁻¹) ⊔ 0 ∧
      (52 - 50 * (X ^ 2)⁻¹) ⊔ 0 ≤ 24.5594181952992 :=
    ⟨le_trans (by linarith [hiX2.2]) le_sup_left,
     sup_le (by linarith [hiX2.1]) (by norm_num)⟩
  have hqO0 : (12.0404791160644 : ℝ) ≤ (1 - P) * ((52 - 50 * (X ^ 2)⁻¹) ⊔ 0) ∧
      (1 - P) * ((52 - 50 * (X ^ 2)⁻¹) ⊔ 0) ≤ 12.0404791160676 := by
    have h := interval_mul hq1 hq2 hO0.1 hO0.2 (by norm_num) (by norm_num)
    exact ⟨le_trans (by norm_num) h.1, le_trans h.2 (by norm_num)⟩
  have hsum1 : (13.0599608464278 : ℝ) ≤
      (1 - P) * ((52 - 50 * (X ^ 2)⁻¹) ⊔ 0) + P * 2 ∧
      (1 - P) * ((52 - 50 * (X ^ 2)⁻¹) ⊔ 0) + P * 2 ≤ 13.0599608464313 :=
    ⟨by linarith [hqO0.1], by linarith [hqO0.2]⟩
  have hinner1 : (12.423019039949 : ℝ) ≤
      (Real.exp (1 / 20))⁻¹ * ((1 - P) * ((52 - 50 * (X ^ 2)⁻¹) ⊔ 0) + P * 2) ∧
      (Real.exp (1 / 20))⁻¹ * ((1 - P) * ((52 - 50 * (X ^ 2)⁻¹) ⊔ 0) + P * 2) ≤
        12.423019039953 := by
    have h := interval_mul hv1 hv2 hsum1.1 hsum1.2 (by norm_num) (by norm_num)
    exact ⟨le_trans (by norm_num) h.1, le_trans h.2 (by norm_num)⟩
  have hpay0 : (14.9590889659133 : ℝ) ≤ 52 - X⁻¹ * 50 ∧
      52 - X⁻¹ * 50 ≤ 14.9590889659144 := ⟨by linarith, by linarith⟩
  have hB1 : (14.9590889659133 : ℝ) ≤
      ((Real.exp (1 / 20))⁻¹ * ((1 - P) * ((52 - 50 * (X ^ 2)⁻¹) ⊔ 0) + P * 2)) ⊔
        ((52 - X⁻¹ * 50) ⊔ 0) ∧
      ((Real.exp (1 / 20))⁻¹ * ((1 - P) * ((52 - 50 * (X ^ 2)⁻¹) ⊔ 0) + P * 2)) ⊔
        ((52 - X⁻¹ * 50) ⊔ 0) ≤ 14.9590889659144 :=
    ⟨le_trans hpay0.1 (le_trans le_sup_left le_sup_right),
     sup_le (le_trans hinner1.2 (by norm_num)) (sup_le hpay0.2 (by norm_num))⟩
  have hX2b : (1.82211880039043 : ℝ) ≤ X ^ 2 ∧ X ^ 2 ≤ 1.82211880039054 := by
    have h := interval_mul hX1 hX2 hX1 hX2 (by norm_num) (by norm_num)
    rw [show (X : ℝ) ^ 2 = X * X by ring]
    exact ⟨le_trans (by norm_num) h.1, le_trans h.2 (by norm_num)⟩
  have hS2hi : (52 - 50 * X ^ 2) ⊔ 0 ≤ 0 :=
    sup_le (by linarith [hX2b.1]) le_rfl
  have hS2lo : (0 : ℝ) ≤ (52 - 50 * X ^ 2) ⊔ 0 := le_sup_right
  have hPpos : (0 : ℝ) ≤ P := by linarith
  have hPS2hi : P * ((52 - 50 * X ^ 2) ⊔ 0) ≤ 0 := by
    have h := mul_le_mul_of_nonneg_left hS2hi hPpos
    simpa using h
  have hPS2lo : (0 : ℝ) ≤ P * ((52 - 50 * X ^ 2) ⊔ 0) := mul_nonneg hPpos hS2lo
  have hsum2 : (0.980518269636366 : ℝ) ≤
      (1 - P) * 2 + P * ((52 - 50 * X ^ 2) ⊔ 0) ∧
      (1 - P) * 2 + P * ((52 - 50 * X ^ 2) ⊔ 0) ≤ 0.980518269636546 :=
    ⟨by linarith, by linarith⟩
  have hinner2 : (0.93269782933863 : ℝ) ≤
      (Real.exp (1 / 20))⁻¹ * ((1 - P) * 2 + P * ((52 - 50 * X ^ 2) ⊔ 0)) ∧
      (Real.exp (1 / 20))⁻¹ * ((1 - P) * 2 + P * ((52 - 50 * X ^ 2) ⊔ 0)) ≤
        0.93269782933882 := by
    have h := interval_mul hv1 hv2 hsum2.1 hsum2.2 (by norm_num) (by norm_num)
    exact ⟨le_trans (by norm_num) h.1, le_trans h.2 (by norm_num)⟩
  have hid50 : X⁻¹ * (50 * X ^ 2) = 50 * X := by
    field_simp
    ring
  have hpay2hi : (52 - X⁻¹ * (50 * X ^ 2)) ⊔ 0 ≤ 0.93269782933882 := by
    rw [hid50]
    exact sup_le (by linarith [hX1]) (by norm_num)
  have hB2 : (0.93269782933863 : ℝ) ≤
      ((Real.exp (1 / 20))⁻¹ * ((1 - P) * 2 + P * ((52 - 50 * X ^ 2) ⊔ 0))) ⊔
        ((52 - X⁻¹ * (50 * X ^ 2)) ⊔ 0) ∧
      ((Real.exp (1 / 20))⁻¹ * ((1 - P) * 2 + P * ((52 - 50 * X ^ 2) ⊔ 0))) ⊔
        ((52 - X⁻¹ * (50 * X ^ 2)) ⊔ 0) ≤ 0.93269782933882 :=
    ⟨le_trans hinner2.1 le_sup_left, sup_le hinner2.2 hpay2hi⟩
  have hqB1 : (7.3338300140968 : ℝ) ≤ (1 - P) *
      (((Real.exp (1 / 20))⁻¹ * ((1 - P) * ((52 - 50 * (X ^ 2)⁻¹) ⊔ 0) + P * 2)) ⊔
        ((52 - X⁻¹ * 50) ⊔ 0)) ∧
      (1 - P) *
      (((Real.exp (1 / 20))⁻¹ * ((1 - P) * ((52 - 50 * (X ^ 2)⁻¹) ⊔ 0) + P * 2)) ⊔
        ((52 - X⁻¹ * 50) ⊔ 0)) ≤ 7.3338300140988 := by
    have h := interval_mul hq1 hq2 hB1.1 hB1.2 (by norm_num) (by norm_num)
    exact ⟨le_trans (by norm_num) h.1, le_trans h.2 (by norm_num)⟩
  have hpB2 : (0.4754341984801 : ℝ) ≤ P *
      (((Real.exp (1 / 20))⁻¹ * ((1 - P) * 2 + P * ((52 - 50 * X ^ 2) ⊔ 0))) ⊔
        ((52 - X⁻¹ * (50 * X ^ 2)) ⊔ 0)) ∧
      P * (((Real.exp (1 / 20))⁻¹ * ((1 - P) * 2 + P * ((52 - 50 * X ^ 2) ⊔ 0))) ⊔
        ((52 - X⁻¹ * (50 * X ^ 2)) ⊔ 0)) ≤ 0.4754341984804 := by
    have h := interval_mul hp1 hp2 hB2.1 hB2.2 (by norm_num) (by norm_num)
    exact ⟨le_trans (by norm_num) h.1, le_trans h.2 (by norm_num)⟩
  have hM : (7.428401902703 : ℝ) ≤ (Real.exp (1 / 20))⁻¹ *
      ((1 - P) *
        (((Real.exp (1 / 20))⁻¹ * ((1 - P) * ((52 - 50 * (X ^ 2)⁻¹) ⊔ 0) + P * 2)) ⊔
          ((52 - X⁻¹ * 50) ⊔ 0)) +
       P * (((Real.exp (1 / 20))⁻¹ * ((1 - P) * 2 + P * ((52 - 50 * X ^ 2) ⊔ 0))) ⊔
          ((52 - X⁻¹ * (50 * X ^ 2)) ⊔ 0))) ∧
      (Real.exp (1 / 20))⁻¹ *
      ((1 - P) *
        (((Real.exp (1 / 20))⁻¹ * ((1 - P) * ((52 - 50 * (X ^ 2)⁻¹) ⊔ 0) + P * 2)) ⊔
          ((52 - X⁻¹ * 50) ⊔ 0)) +
       P * (((Real.exp (1 / 20))⁻¹ * ((1 - P) * 2 + P * ((52 - 50 * X ^ 2) ⊔ 0))) ⊔
          ((52 - X⁻¹ * (50 * X ^ 2)) ⊔ 0))) ≤ 7.428401902706 := by
    have hsM1 : (7.8092642125769 : ℝ) ≤ (1 - P) *
        (((Real.exp (1 / 20))⁻¹ * ((1 - P) * ((52 - 50 * (X ^ 2)⁻¹) ⊔ 0) + P * 2)) ⊔
          ((52 - X⁻¹ * 50) ⊔ 0)) +
        P * (((Real.exp (1 / 20))⁻¹ * ((1 - P) * 2 + P * ((52 - 50 * X ^ 2) ⊔ 0))) ⊔
          ((52 - X⁻¹ * (50 * X ^ 2)) ⊔ 0)) := by linarith [hqB1.1, hpB2.1]
    have hsM2 : (1 - P) *
        (((Real.exp (1 / 20))⁻¹ * ((1 - P) * ((52 - 50 * (X ^ 2)⁻¹) ⊔ 0) + P * 2)) ⊔
          ((52 - X⁻¹ * 50) ⊔ 0)) +
        P * (((Real.exp (1 / 20))⁻¹ * ((1 - P) * 2 + P * ((52 - 50 * X ^ 2) ⊔ 0))) ⊔
          ((52 - X⁻¹ * (50 * X ^ 2)) ⊔ 0)) ≤ 7.8092642125792 := by
      linarith [hqB1.2, hpB2.2]
    have h := interval_mul hv1 hv2 hsM1 hsM2 (by norm_num) (by norm_num)
    exact ⟨le_trans (by norm_num) h.1, le_trans h.2 (by norm_num)⟩
  have hid50b : X⁻¹ * (X⁻¹ * (50 * X ^ 2)) = 50 := by
    field_simp
    ring
  constructor
  · exact Or.inl (le_trans
      (show ((7428401902703 : ℝ) / 1000000000000) ≤ 7.428401902703 by norm_num) hM.1)
  · refine ⟨le_trans hM.2
      (show (7.428401902706 : ℝ) ≤ 3714200951353 / 500000000000 by norm_num), ?_⟩
    rw [hid50b]
    norm_num

/-- The terminal stock-price layer of the claim-C5 scenario:
`(27.4405818…, 50.0, 91.1059400…)`. -/
theorem c5_terminal_layer :
    (27.4405818 : ℝ) < (termS 50 (ltSpecs 0.3 0.05 0 2 2) 2).getD 0 0 ∧
      (termS 50 (ltSpecs 0.3 0.05 0 2 2) 2).getD 0 0 < 27.4405819 ∧
      (termS 50 (ltSpecs 0.3 0.05 0 2 2) 2).getD 1 0 = 50 ∧
      (91.1059400 : ℝ) < (termS 50 (ltSpecs 0.3 0.05 0 2 2) 2).getD 2 0 ∧
      (termS 50 (ltSpecs 0.3 0.05 0 2 2) 2).getD 2 0 < 91.1059401 := by
  obtain ⟨hi1, hi2⟩ := c5_iX_bounds
  obtain ⟨hX1, hX2⟩ := c5_X_bounds
  have hiX2 : (0.548811636094017 : ℝ) ≤ (Real.exp (1 / 20) ^ 6)⁻¹ *
        (Real.exp (1 / 20) ^ 6)⁻¹ ∧
      (Real.exp (1 / 20) ^ 6)⁻¹ * (Real.exp (1 / 20) ^ 6)⁻¹ ≤
        0.548811636094049 := by
    have h := interval_mul hi1 hi2 hi1 hi2 (by norm_num) (by norm_num)
    exact ⟨le_trans (by norm_num) h.1, le_trans h.2 (by norm_num)⟩
  have hX2b : (1.82211880039043 : ℝ) ≤ Real.exp (1 / 20) ^ 6 * Real.exp (1 / 20) ^ 6 ∧
      Real.exp (1 / 20) ^ 6 * Real.exp (1 / 20) ^ 6 ≤ 1.82211880039054 := by
    have h := interval_mul hX1 hX2 hX1 hX2 (by norm_num) (by norm_num)
    exact ⟨le_trans (by norm_num) h.1, le_trans h.2 (by norm_num)⟩
  have hXne : (Real.exp (1 / 20) : ℝ) ^ 6 ≠ 0 := by positivity
  have h0 : (termS 50 (ltSpecs 0.3 0.05 0 2 2) 2).getD 0 0 =
      50 * ((Real.exp (1 / 20) ^ 6)⁻¹ * (Real.exp (1 / 20) ^ 6)⁻¹) := by
    rw [ltSpecs_C5, termS_getD _ _ _ 0 (by norm_num)]
    norm_num
    ring
  have h1 : (termS 50 (ltSpecs 0.3 0.05 0 2 2) 2).getD 1 0 = 50 := by
    rw [ltSpecs_C5, termS_getD _ _ _ 1 (by norm_num)]
    norm_num
  have h2 : (termS 50 (ltSpecs 0.3 0.05 0 2 2) 2).getD 2 0 =
      50 * (Real.exp (1 / 20) ^ 6 * Real.exp (1 / 20) ^ 6) := by
    rw [ltSpecs_C5, termS_getD _ _ _ 2 (by norm_num)]
    norm_num
    ring
  rw [h0, h1, h2]
  refine ⟨by linarith [hiX2.1], by linarith [hiX2.2], rfl,
    by linarith [hX2b.1], by linarith [hX2b.2]⟩

/-- Counterexample to claim C5 as stated: the reported price of the
concrete scenario is not `7.4284019027` to 8 significant digits — the
engine multiplies the backward-induction value by `exp(r·T) = exp(0.1)`
(Boston.py line 118), reporting `≈ 8.2096537`. -/
theorem C5_counterexample :
    ¬ ((7.42840185 : ℝ) <
        (Boston_calc_LT (ltSpecs 0.3 0.05 0 2 2) 50 52 (-1) 0.05 2 2 true).px ∧
      (Boston_calc_LT (ltSpecs 0.3 0.05 0 2 2) 50 52 (-1) 0.05 2 2 true).px <
        7.42840195) := by
  have hE : Real.exp ((0.05 : ℝ) * 2) = Real.exp (1 / 20) ^ 2 := by
    rw [← Real.exp_nat_mul]
    norm_num
  rw [boston_px_eq_spec, hE]
  rintro ⟨h1, h2⟩
  have hV := c5_value_bounds
  have hx2 := c5_x2_bounds
  have h := interval_mul hx2.1 hx2.2 hV.1 hV.2 (by norm_num) (by norm_num)
  have hlow := h.1
  nlinarith [hlow]

/-- Claim C5 (amended) — in the concrete scenario
`S0 = 50, vol = 0.3, K = 52, T = 2, r = 0.05, q = 0, n = 2` the
backward-induction time-0 value is `7.4284019027` to 8 significant digits,
and the reported price equals that value times the engine's terminal
rescaling `exp(0.05·2)` (hence lies in `(8.2096537, 8.2096538)`); the
retained `PriceTree` has 3 layers, whose terminal layer is
`(27.4405818…, 50.0, 91.1059400…)`. -/
theorem C5_concrete_scenario :
    (Boston_calc_LT (ltSpecs 0.3 0.05 0 2 2) 50 52 (-1) 0.05 2 2 true).px =
      Real.exp ((0.05 : ℝ) * 2) *
        specAmerValue (ltSpecs 0.3 0.05 0 2 2) 50 52 (-1) 2 ∧
    (7.42840185 : ℝ) < specAmerValue (ltSpecs 0.3 0.05 0 2 2) 50 52 (-1) 2 ∧
    specAmerValue (ltSpecs 0.3 0.05 0 2 2) 50 52 (-1) 2 < 7.42840195 ∧
    (8.2096537 : ℝ) <
      (Boston_calc_LT (ltSpecs 0.3 0.05 0 2 2) 50 52 (-1) 0.05 2 2 true).px ∧
    (Boston_calc_LT (ltSpecs 0.3 0.05 0 2 2) 50 52 (-1) 0.05 2 2 true).px <
      8.2096538 ∧
    ∃ RT, (Boston_calc_LT (ltSpecs 0.3 0.05 0 2 2) 50 52 (-1) 0.05 2 2 true).ref_tree
        = some RT ∧
      RT.length = 3 ∧
      RT.getLast? = some (termS 50 (ltSpecs 0.3 0.05 0 2 2) 2) ∧
      ((27.4405818 : ℝ) < (termS 50 (ltSpecs 0.3 0.05 0 2 2) 2).getD 0 0 ∧
        (termS 50 (ltSpecs 0.3 0.05 0 2 2) 2).getD 0 0 < 27.4405819) ∧
      (termS 50 (ltSpecs 0.3 0.05 0 2 2) 2).getD 1 0 = 50 ∧
      ((91.1059400 : ℝ) < (termS 50 (ltSpecs 0.3 0.05 0 2 2) 2).getD 2 0 ∧
        (termS 50 (ltSpecs 0.3 0.05 0 2 2) 2).getD 2 0 < 91.1059401) := by
  have hE : Real.exp ((0.05 : ℝ) * 2) = Real.exp (1 / 20) ^ 2 := by
    rw [← Real.exp_nat_mul]
    norm_num
  have hV := c5_value_bounds
  have hx2 := c5_x2_bounds
  have hprod := interval_mul hx2.1 hx2.2 hV.1 hV.2 (by norm_num) (by norm_num)
  have hterm := c5_terminal_layer
  refine ⟨boston_px_eq_spec _ _ _ _ _ _ _ _, by linarith [hV.1], by linarith [hV.2],
    ?_, ?_, ?_⟩
  · rw [boston_px_eq_spec, hE]
    nlinarith [hprod.1]
  · rw [boston_px_eq_spec, hE]
    nlinarith [hprod.2]
  · refine ⟨_, rfl, ?_, ?_, ⟨hterm.1, hterm.2.1⟩, hterm.2.2.1,
      ⟨hterm.2.2.2.1, hterm.2.2.2.2⟩⟩
    · simp [backSteps_length]
    · exact getLast?_map_some Prod.fst _ _ (backSteps_getLast? _ _ _)

end Qfrm
